import Mathlib

/-!
# Verification of the qoder-wiki-export core

Shallow embedding of the export core of the `qoder-wiki-export` extension:
the hierarchy codec (`src/services/exportService.ts`), the numbering and
name-cleaning engine, the layout strategies of
`src/exporters/markdownExporter.ts`, the markdown link rewriting passes,
and the retry policy of `src/services/gracefulDegradation.ts`.

JavaScript strings are modelled as `List Char` (`JStr`); every string
operation of the source (`split`, `trim`, `replace`, `toUpperCase`, ...)
is embedded as an explicit function on character lists with JavaScript
semantics.  Case conversion is modelled by `Char.toUpper`/`Char.toLower`,
which matches JavaScript on the basic latin range used by the code.
-/

set_option maxHeartbeats 1000000
set_option maxRecDepth 16000

namespace QoderWiki

/-- JavaScript string, modelled as a list of characters. -/
abbrev JStr := List Char

/-- Coerce a Lean string literal into the `JStr` model. -/
def str (s : String) : JStr := s.data

/-- Decimal rendering of a JavaScript number that holds a natural, as in
`` `${documentNumber}` ``. -/
def natToStr (n : Nat) : JStr := (Nat.repr n).data

/-! ### String model -/

/-- JavaScript `s.split(sep)` for a one-character separator: splits at every
occurrence, keeping empty pieces, and returns `[s]` when the separator does
not occur (`"".split(sep)` is `[""]`). -/
def jsSplit (sep : Char) : JStr → List JStr
  | [] => [[]]
  | c :: cs =>
    if c = sep then [] :: jsSplit sep cs
    else
      match jsSplit sep cs with
      | [] => [[c]]
      | w :: ws => (c :: w) :: ws

/-- `ExportService.getOriginalId` / `MarkdownExporter.getOriginalDocumentId`:
`const parts = hierarchyId.split('_'); return parts[parts.length - 1] || hierarchyId`.
An empty last segment is falsy, in which case the whole input is returned. -/
def getOriginalId (hierarchyId : JStr) : JStr :=
  let parts := jsSplit '_' hierarchyId
  let last := parts.getLastD []
  if last = [] then hierarchyId else last

/-- `DocumentSelector.createQuickPickItems` hierarchy encoding, iterated along
the ancestor chain: starting from the empty parent path, each level computes
`parentPath ? parentPath + '_' + id : id`. -/
def encodeHierarchyPath (ancestors : List JStr) (ownId : JStr) : JStr :=
  (ancestors ++ [ownId]).foldl (fun acc i => if acc = [] then i else acc ++ '_' :: i) []

/-! ### Name cleaning (`MarkdownExporter.cleanDocumentName`) -/

/-- JavaScript `\s` whitespace class (the ASCII part, which covers every
character the source can produce). -/
def isWs (c : Char) : Bool :=
  c = ' ' || c = '\t' || c = '\n' || c = '\r' || c = '\x0b' || c = '\x0c'

/-- The character class `[\s\-_]` of the token-stripping regexes. -/
def isSepChar (c : Char) : Bool := isWs c || c = '-' || c = '_'

/-- The character class `[\.\-_\s]` following a leading number. -/
def isNumSep (c : Char) : Bool := c = '.' || c = '-' || c = '_' || isWs c

/-- Case-insensitive character comparison, as under the regex `/i` flag. -/
def lowEq (a b : Char) : Bool := a.toLower = b.toLower

/-- Does `s` start with `pat`, comparing case-insensitively? -/
def startsCI : JStr → JStr → Bool
  | [], _ => true
  | _ :: _, [] => false
  | p :: ps, c :: cs => lowEq p c && startsCI ps cs

/-- `name.replace(/^(Document|Doc|File|Page)[\s\-_]*/i, '')`: the anchored
alternation tries `Document` before `Doc`; on a match the following separator
run is consumed greedily. -/
def stripLeadingTok (s : JStr) : JStr :=
  let dropped : Option JStr :=
    if startsCI (str "document") s then some (s.drop 8)
    else if startsCI (str "doc") s then some (s.drop 3)
    else if startsCI (str "file") s then some (s.drop 4)
    else if startsCI (str "page") s then some (s.drop 4)
    else none
  match dropped with
  | some rest => rest.dropWhile (fun c => isSepChar c)
  | none => s

/-- `.replace(/[\s\-_]*(Document|Doc|File|Page)$/i, '')`: a token suffix (the
four alternatives cannot overlap at the end of the string) is removed together
with the maximal separator run before it; leftmost matching makes the run
maximal. -/
def stripTrailingTok (s : JStr) : JStr :=
  let r := s.reverse
  let dropped : Option JStr :=
    if startsCI (str "document").reverse r then some (r.drop 8)
    else if startsCI (str "doc").reverse r then some (r.drop 3)
    else if startsCI (str "file").reverse r then some (r.drop 4)
    else if startsCI (str "page").reverse r then some (r.drop 4)
    else none
  match dropped with
  | some rest => (rest.dropWhile (fun c => isSepChar c)).reverse
  | none => s

/-- `.replace(/^[0-9]+[\.\-_\s]*/, '')`. -/
def stripLeadingNum (s : JStr) : JStr :=
  match s with
  | [] => []
  | c :: _ => if c.isDigit then (s.dropWhile Char.isDigit).dropWhile (fun c => isNumSep c) else s

/-- `.replace(/[_-]/g, ' ')`. -/
def replaceUD (s : JStr) : JStr :=
  s.map (fun c => if c = '_' || c = '-' then ' ' else c)

/-- JavaScript `String.prototype.trim`. -/
def jsTrim (s : JStr) : JStr :=
  ((s.dropWhile (isWs ·)).reverse.dropWhile (isWs ·)).reverse

/-- `word.charAt(0).toUpperCase() + word.slice(1).toLowerCase()`. -/
def capWord : JStr → JStr
  | [] => []
  | c :: cs => c.toUpper :: cs.map Char.toLower

/-- JavaScript `Array.prototype.join` with a one-character separator. -/
def jsJoin (sep : Char) : List JStr → JStr
  | [] => []
  | [w] => w
  | w :: ws => w ++ sep :: jsJoin sep ws

/-- `MarkdownExporter.cleanDocumentName`: strip a leading and a trailing
`Document|Doc|File|Page` token, strip a leading number, replace `_`/`-` by
spaces, trim, title-case each space-separated word, and fall back to
`"Untitled"` when the result is empty. -/
def cleanDocumentName (name : JStr) : JStr :=
  let cleaned := jsTrim (replaceUD (stripLeadingNum (stripTrailingTok (stripLeadingTok name))))
  let titled := jsJoin ' ' ((jsSplit ' ' cleaned).map capWord)
  if titled = [] then str "Untitled" else titled

/-! ### Catalog model (`types/qoder.ts`) -/

mutual
/-- `WikiCatalog`: `{id, name, status, subCatalog?: WikiCatalog[]}`.  The
optional child array is `Option CatList`, with `CatList` an inlined list of
catalogs (mutual inductive, so recursion over the tree is structural). -/
inductive WikiCatalog where
  | mk (id name status : JStr) (subCatalog : Option CatList)
/-- A `WikiCatalog[]` array. -/
inductive CatList where
  | nil
  | cons (c : WikiCatalog) (l : CatList)
end

def WikiCatalog.id : WikiCatalog → JStr
  | .mk i _ _ _ => i

def WikiCatalog.name : WikiCatalog → JStr
  | .mk _ n _ _ => n

def WikiCatalog.status : WikiCatalog → JStr
  | .mk _ _ s _ => s

def WikiCatalog.subCatalog : WikiCatalog → Option CatList
  | .mk _ _ _ c => c

/-- `catalog.subCatalog && catalog.subCatalog.length > 0` applied to an
already-unwrapped array. -/
def CatList.nonempty : CatList → Bool
  | .nil => false
  | .cons _ _ => true

def CatList.toList : CatList → List WikiCatalog
  | .nil => []
  | .cons c l => c :: CatList.toList l

/-- `WikiDocument`: `{id, name, content, status}`. -/
structure WikiDocument where
  id : JStr
  name : JStr
  content : JStr
  status : JStr

/-- `ExportStructureType` (`flat` / `tree`). -/
inductive ExportStructureType where
  | flat
  | tree
deriving DecidableEq, Repr

/-- `MarkdownExportOptions`. -/
structure MarkdownExportOptions where
  preserveHierarchy : Bool
  includeTableOfContents : Bool
  createIndexFile : Bool
  exportStructure : ExportStructureType

/-- JavaScript `Map.prototype.set`: overwrite in place when the key exists,
append otherwise. -/
def jsMapSet {α : Type} (m : List (JStr × α)) (k : JStr) (v : α) : List (JStr × α) :=
  if m.any (fun p => p.1 = k) then m.map (fun p => if p.1 = k then (k, v) else p)
  else m ++ [(k, v)]

/-- JavaScript `Map.prototype.get` (`undefined` as `none`). -/
def jsMapGet {α : Type} (m : List (JStr × α)) (k : JStr) : Option α :=
  (m.find? (fun p => p.1 = k)).map (fun p => p.2)

/-- `NumberInfo` of `assignDocumentNumbers`: `{number, cleanName}`, keyed by
document id. -/
abbrev NumMap := List (JStr × (JStr × JStr))

/-! ### Numbering engine (`MarkdownExporter.assignDocumentNumbers`) -/

/-- The `processLevel` closure of `assignDocumentNumbers`: numbers the items
of one level (`levelIndex` starting from the shared root counter at top level
and from 1 below), records `{number, cleanName}` for each id, and recurses
into nonempty child arrays with the dotted `number` as parent.  Returns the
final `levelIndex` (whose write-back to `currentIndex` has no observable
effect within one invocation) together with the map. -/
def assignLevel (parentNumber : Option JStr) : CatList → Nat → NumMap → Nat × NumMap
  | .nil, levelIndex, m => (levelIndex, m)
  | .cons (.mk i n _ sub) rest, levelIndex, m =>
    let number := match parentNumber with
      | some pn => pn ++ '.' :: natToStr levelIndex
      | none => natToStr levelIndex
    let m1 := jsMapSet m i (number, cleanDocumentName n)
    let m2 := match sub with
      | some subl => if subl.nonempty then (assignLevel (some number) subl 1 m1).2 else m1
      | none => m1
    assignLevel parentNumber rest (levelIndex + 1) m2

/-- `MarkdownExporter.assignDocumentNumbers`. -/
def assignDocumentNumbers (catalogs : CatList) : NumMap :=
  (assignLevel none catalogs 1 []).2

/-- Dotted rendering of a 1-based sibling index path: `[2,1] ↦ "2.1"`. -/
def positionNumber : List Nat → JStr
  | [] => []
  | [i] => natToStr i
  | i :: rest => natToStr i ++ '.' :: positionNumber rest

/-- Modelled from the claim C5: the depth-first pre-order listing of every
node paired with its 1-based sibling index path (siblings numbered from the
starting index of their level). -/
def indexedLevel (path : List Nat) : CatList → Nat → List (List Nat × WikiCatalog)
  | .nil, _ => []
  | .cons (.mk i n st sub) rest, idx =>
    (path ++ [idx], WikiCatalog.mk i n st sub) ::
      ((match sub with
        | some subl => if subl.nonempty then indexedLevel (path ++ [idx]) subl 1 else []
        | none => []) ++ indexedLevel path rest (idx + 1))

/-- The numbering the claim describes: fold the indexed pre-order into a map,
giving each node the dotted number of its index path and its cleaned name. -/
def specAssignNumbers (catalogs : CatList) : NumMap :=
  (indexedLevel [] catalogs 1).foldl
    (fun m p => jsMapSet m p.2.id (positionNumber p.1, cleanDocumentName p.2.name)) []

/-! ### Flattening (`MarkdownExporter.flattenCatalogHierarchy`) -/

/-- Node.js `path.join` in the two-argument form used by the exporter (the
inputs never contain `.`/`..` segments, so no normalisation is modelled). -/
def pathJoin (a b : JStr) : JStr :=
  if a = [] then b else if b = [] then a else a ++ '/' :: b

/-- `MarkdownExporter.flattenCatalogHierarchy`: pre-order flattening, pairing
every node with its `relativePath`. -/
def flattenCatalogHierarchy : CatList → JStr → List (WikiCatalog × JStr)
  | .nil, _ => []
  | .cons (.mk i n st sub) rest, basePath =>
    let currentPath := if basePath = [] then n else pathJoin basePath n
    (WikiCatalog.mk i n st sub, currentPath) ::
      ((match sub with
        | some subl => if subl.nonempty then flattenCatalogHierarchy subl currentPath else []
        | none => []) ++ flattenCatalogHierarchy rest basePath)

/-- Modelled from the claim C10: plain depth-first pre-order listing. -/
def preorderList : CatList → List WikiCatalog
  | .nil => []
  | .cons (.mk i n st sub) rest =>
    WikiCatalog.mk i n st sub ::
      ((match sub with
        | some subl => preorderList subl
        | none => []) ++ preorderList rest)

/-- Modelled from the claim C10: total node count of the forest. -/
def countNodes : CatList → Nat
  | .nil => 0
  | .cons (.mk _ _ _ sub) rest =>
    1 + (match sub with
         | some subl => countNodes subl
         | none => 0) + countNodes rest

/-! ### Filename sanitisation (`FileService`) -/

/-- Does `s` start with `pat` (case-sensitive)? -/
def listStarts : JStr → JStr → Bool
  | [], _ => true
  | _ :: _, [] => false
  | p :: ps, c :: cs => p = c && listStarts ps cs

/-- Does `s` end with `pat`? -/
def listEnds (pat s : JStr) : Bool := listStarts pat.reverse s.reverse

/-- The class `[<>:"|?*\\/\x00-\x1f\x7f]` of invalid filename characters. -/
def isInvalidFileChar (c : Char) : Bool :=
  c = '<' || c = '>' || c = ':' || c = '"' || c = '|' || c = '?' || c = '*' ||
  c = '\\' || c = '/' || c.toNat ≤ 31 || c.toNat = 127

/-- Split at the first occurrence of `stop`: `some (before, after)` with the
stop character consumed, `none` when it does not occur. -/
def splitAtChar (stop : Char) : JStr → Option (JStr × JStr)
  | [] => none
  | c :: cs =>
    if c = stop then some ([], cs)
    else
      match splitAtChar stop cs with
      | some (a, b) => some (c :: a, b)
      | none => none

/-- `path.parse(s).name` and `path.parse(s).ext` for a separator-free input:
the extension starts at the last dot, unless that dot is the first
character. -/
def parseNameExt (s : JStr) : JStr × JStr :=
  match splitAtChar '.' s.reverse with
  | some (revExt, revName) =>
    if revName = [] then (s, [])
    else (revName.reverse, '.' :: revExt.reverse)
  | none => (s, [])

/-- The reserved Windows device names checked by `sanitizeFilename`. -/
def reservedNames : List JStr :=
  [str "CON", str "PRN", str "AUX", str "NUL",
   str "COM1", str "COM2", str "COM3", str "COM4", str "COM5",
   str "COM6", str "COM7", str "COM8", str "COM9",
   str "LPT1", str "LPT2", str "LPT3", str "LPT4", str "LPT5",
   str "LPT6", str "LPT7", str "LPT8", str "LPT9"]

/-- `FileService.sanitizeFilename`. -/
def sanitizeFilename (filename : JStr) : JStr :=
  if jsTrim filename = [] then str "untitled"
  else
    let s1 := jsTrim filename
    let s2 := s1.map (fun c => if isInvalidFileChar c then '_' else c)
    let nameNoExt := (parseNameExt s2).1.map Char.toUpper
    let s3 := if reservedNames.contains nameNoExt then '_' :: s2 else s2
    let s4 := (s3.reverse.dropWhile (fun c => c = '.' || c = ' ')).reverse
    let s5 := if s4 = [] then str "untitled" else s4
    if s5.length > 200 then
      (parseNameExt s5).1.take (200 - (parseNameExt s5).2.length) ++ (parseNameExt s5).2
    else s5

/-- `MarkdownExporter.generateFilename`: sanitize and ensure a `.md`
extension (checked case-insensitively). -/
def generateFilename (documentName : JStr) : JStr :=
  let sanitized := sanitizeFilename documentName
  if listEnds (str ".md") (sanitized.map Char.toLower) then sanitized
  else sanitized ++ str ".md"

/-- `FileService.normalizePath`: backslashes to forward slashes, nothing
else. -/
def normalizePath (filePath : JStr) : JStr :=
  filePath.map (fun c => if c = '\\' then '/' else c)

/-! ### Markdown content processing (`MarkdownExporter.processMarkdownContent`)

Each regex `replace` scans left to right: at every position the pattern is
tried; on a match the replacement is emitted and scanning resumes after the
match, otherwise one character is emitted verbatim.  The scanners below use a
fuel argument bounded by the input length (each step consumes at least one
character), keeping the recursion structural. -/

/-- `anchor.toLowerCase().replace(/\s+/g, '-')`: the whitespace-run collapse. -/
def collapseWsF : Nat → JStr → JStr
  | 0, s => s
  | _, [] => []
  | fuel + 1, c :: cs =>
    if isWs c then '-' :: collapseWsF fuel (cs.dropWhile (isWs ·))
    else c :: collapseWsF fuel cs

def collapseWs (s : JStr) : JStr := collapseWsF s.length s

/-- The wiki-link pass `content.replace(/\[\[([^\]]+)\]\]/g, ...)`: rewrite
`[[Name]]` to `[Name](./generateFilename(Name))`. -/
def replWikiF : Nat → JStr → JStr
  | 0, s => s
  | _, [] => []
  | fuel + 1, '[' :: '[' :: t =>
    (match splitAtChar ']' t with
     | some (name, ']' :: rest2) =>
       if name = [] then '[' :: replWikiF fuel ('[' :: t)
       else '[' :: name ++ ']' :: '(' :: '.' :: '/' ::
         (generateFilename name ++ ')' :: replWikiF fuel rest2)
     | _ => '[' :: replWikiF fuel ('[' :: t))
  | fuel + 1, c :: cs => c :: replWikiF fuel cs

def replWiki (s : JStr) : JStr := replWikiF s.length s

/-- The anchor pass `content.replace(/\[([^\]]+)\]\(#([^)]+)\)/g, ...)`:
lower-case the anchor and collapse whitespace runs to hyphens. -/
def replAnchorF : Nat → JStr → JStr
  | 0, s => s
  | _, [] => []
  | fuel + 1, '[' :: t =>
    (match splitAtChar ']' t with
     | some (text, '(' :: '#' :: u) =>
       if text = [] then '[' :: replAnchorF fuel t
       else
         match splitAtChar ')' u with
         | some (anchor, rest2) =>
           if anchor = [] then '[' :: replAnchorF fuel t
           else '[' :: text ++ ']' :: '(' :: '#' ::
             (collapseWs (anchor.map Char.toLower) ++ ')' :: replAnchorF fuel rest2)
         | none => '[' :: replAnchorF fuel t
     | _ => '[' :: replAnchorF fuel t)
  | fuel + 1, c :: cs => c :: replAnchorF fuel cs

def replAnchor (s : JStr) : JStr := replAnchorF s.length s

/-- The image pass `content.replace(/!\[([^\]]*)\]\(([^)]+)\)/g, ...)`:
`http`/`https` targets are kept, others are normalised. -/
def replImageF : Nat → JStr → JStr
  | 0, s => s
  | _, [] => []
  | fuel + 1, '!' :: '[' :: t =>
    (match splitAtChar ']' t with
     | some (alt, '(' :: u) =>
       (match splitAtChar ')' u with
        | some (target, rest2) =>
          if target = [] then '!' :: replImageF fuel ('[' :: t)
          else if listStarts (str "http") target || listStarts (str "https") target then
            '!' :: '[' :: alt ++ ']' :: '(' :: (target ++ ')' :: replImageF fuel rest2)
          else
            '!' :: '[' :: alt ++ ']' :: '(' ::
              (normalizePath target ++ ')' :: replImageF fuel rest2)
        | none => '!' :: replImageF fuel ('[' :: t))
     | _ => '!' :: replImageF fuel ('[' :: t))
  | fuel + 1, c :: cs => c :: replImageF fuel cs

def replImage (s : JStr) : JStr := replImageF s.length s

/-- The link pass `content.replace(/\[([^\]]+)\]\(([^)]+)\)/g, ...)`:
`http`/`https` and `#` targets are kept, others are normalised. -/
def replLinkF : Nat → JStr → JStr
  | 0, s => s
  | _, [] => []
  | fuel + 1, '[' :: t =>
    (match splitAtChar ']' t with
     | some (text, '(' :: u) =>
       if text = [] then '[' :: replLinkF fuel t
       else
         match splitAtChar ')' u with
         | some (target, rest2) =>
           if target = [] then '[' :: replLinkF fuel t
           else if listStarts (str "http") target || listStarts (str "https") target ||
               listStarts (str "#") target then
             '[' :: text ++ ']' :: '(' :: (target ++ ')' :: replLinkF fuel rest2)
           else
             '[' :: text ++ ']' :: '(' ::
               (normalizePath target ++ ')' :: replLinkF fuel rest2)
         | none => '[' :: replLinkF fuel t
     | _ => '[' :: replLinkF fuel t)
  | fuel + 1, c :: cs => c :: replLinkF fuel cs

def replLink (s : JStr) : JStr := replLinkF s.length s

/-- `MarkdownExporter.processInternalLinks`: wiki links, then anchors. -/
def processInternalLinks (content : JStr) : JStr := replAnchor (replWiki content)

/-- `MarkdownExporter.processFileLinks`: images, then regular links. -/
def processFileLinks (content : JStr) : JStr := replLink (replImage content)

/-- The backtick character (0x60). -/
def backtick : Char := Char.ofNat 96

/-- Find the first occurrence of a triple backtick. -/
def splitAtTicks : JStr → Option (JStr × JStr)
  | [] => none
  | c :: cs =>
    if c = backtick && listStarts [backtick, backtick] cs then some ([], cs.drop 2)
    else
      match splitAtTicks cs with
      | some (a, b) => some (c :: a, b)
      | none => none

/-- `preserveCodeBlocks`: wrap every lazily-matched fenced block in
newlines. -/
def codeBlocksF : Nat → JStr → JStr
  | 0, s => s
  | _, [] => []
  | fuel + 1, c :: cs =>
    if c = backtick && listStarts [backtick, backtick] cs then
      match splitAtTicks (cs.drop 2) with
      | some (body, rest2) =>
        '\n' :: backtick :: backtick :: backtick :: body ++
          backtick :: backtick :: backtick :: '\n' :: codeBlocksF fuel rest2
      | none => c :: codeBlocksF fuel cs
    else c :: codeBlocksF fuel cs

def preserveCodeBlocks (s : JStr) : JStr := codeBlocksF s.length s

/-- `content.replace(/\r\n/g, '\n')`. -/
def normCRLF : JStr → JStr
  | [] => []
  | '\r' :: '\n' :: rest => '\n' :: normCRLF rest
  | c :: cs => c :: normCRLF cs

/-- `.replace(/\r/g, '\n')`. -/
def normCR (s : JStr) : JStr := s.map (fun c => if c = '\r' then '\n' else c)

/-- `preserveTables` replaces every matched table row with itself. -/
def preserveTables (s : JStr) : JStr := s

/-- `preserveLists` replaces every matched list item with itself. -/
def preserveLists (s : JStr) : JStr := s

/-- `MarkdownExporter.preserveMarkdownFormatting`. -/
def preserveMarkdownFormatting (content : JStr) : JStr :=
  preserveLists (preserveTables (preserveCodeBlocks (normCR (normCRLF content))))

/-- `MarkdownExporter.processMarkdownContent` (the options object is not
consulted by any of the three passes). -/
def processMarkdownContent (content : JStr) : JStr :=
  preserveMarkdownFormatting (processFileLinks (processInternalLinks content))

/-! ### Error taxonomy and retry policy (`GracefulDegradation`) -/

/-- `ExportErrorType` enumeration of `types/qoder.ts` (all members referenced
by the error handler and the retry policy). -/
inductive ExportErrorType where
  | qoderNotAvailable
  | authenticationFailed
  | apiError
  | fileSystemError
  | conversionError
  | userCancelled
  | networkError
  | rateLimitError
  | documentNotFound
  | permissionDenied
  | diskSpaceError
  | timeoutError
  | validationError
deriving DecidableEq, Repr

/-- A JavaScript error value as classified by `retryWithBackoff`: a typed
`ExportError` (`error instanceof ExportError`) or any other thrown value. -/
inductive JsError where
  | exportError (t : ExportErrorType)
  | generic
deriving DecidableEq, Repr

/-- `GracefulDegradation.shouldNotRetry`. -/
def shouldNotRetry (t : ExportErrorType) : Bool :=
  [ExportErrorType.qoderNotAvailable, ExportErrorType.authenticationFailed,
   ExportErrorType.userCancelled, ExportErrorType.documentNotFound,
   ExportErrorType.permissionDenied, ExportErrorType.diskSpaceError,
   ExportErrorType.validationError, ExportErrorType.fileSystemError].contains t

/-- `GracefulDegradation.calculateRateLimitDelay`. -/
def calculateRateLimitDelay (attempt : Nat) : Nat :=
  min (5000 * 2 ^ (attempt - 1)) 60000

/-- The loop of `GracefulDegradation.retryWithBackoff`.  The operation is
modelled as a script `op` giving the outcome of each (1-based) attempt; the
result carries the list of backoff delays awaited.  `lastError` models the
`lastError` local.  The loop `for (attempt = 1; attempt <= maxRetries; ...)`
is driven by the fuel `gas = maxRetries + 1 - attempt`; the `gas = 0` base
case is the fall-through `throw lastError || new Error(...)` after the
loop. -/
def retryGo (op : Nat → Except JsError α) (maxRetries backoffMs : Nat) :
    Nat → Nat → Option JsError → Except JsError α × List Nat
  | 0, _attempt, lastError => (.error (lastError.getD .generic), [])
  | gas + 1, attempt, _ =>
    match op attempt with
    | .ok v => (.ok v, [])
    | .error e =>
      let transient : Except JsError α × List Nat :=
        if attempt = maxRetries then (.error e, [])
        else
          let d := min (backoffMs * 2 ^ (attempt - 1)) 10000
          let r := retryGo op maxRetries backoffMs gas (attempt + 1) (some e)
          (r.1, d :: r.2)
      match e with
      | .exportError t =>
        if shouldNotRetry t then (.error e, [])
        else if t = ExportErrorType.rateLimitError then
          let d := calculateRateLimitDelay attempt
          let r := retryGo op maxRetries backoffMs gas (attempt + 1) (some e)
          (r.1, d :: r.2)
        else transient
      | .generic => transient

/-- `GracefulDegradation.retryWithBackoff`, started at attempt 1 with enough
fuel for `maxRetries` loop iterations. -/
def retryWithBackoff (op : Nat → Except JsError α) (maxRetries backoffMs : Nat) :
    Except JsError α × List Nat :=
  retryGo op maxRetries backoffMs maxRetries 1 none

/-- The seven non-retryable error kinds listed by the spec sentence of C3
(without `fileSystemError`). -/
def claimNonRetryable (t : ExportErrorType) : Bool :=
  [ExportErrorType.qoderNotAvailable, ExportErrorType.authenticationFailed,
   ExportErrorType.userCancelled, ExportErrorType.documentNotFound,
   ExportErrorType.permissionDenied, ExportErrorType.diskSpaceError,
   ExportErrorType.validationError].contains t

/-- Modelled from the spec's words, parametrised by the non-retryable set:
non-retryable kinds re-raise immediately; a rate-limit failure waits
`min(5000 * 2^(attempt-1), 60000)` ms and consumes an attempt slot; any other
failure is retried after `min(backoffMs * 2^(attempt-1), 10000)` ms, except on
the last attempt, where the last error is re-raised. -/
def specRetryGo (nonRetryable : ExportErrorType → Bool) (op : Nat → Except JsError α)
    (backoffMs : Nat) : Nat → Nat → Except JsError α × List Nat
  | 0, attempt =>
    (match op attempt with
     | .ok v => (.ok v, [])
     | .error (.exportError t) =>
       if nonRetryable t then (.error (.exportError t), [])
       else if t = ExportErrorType.rateLimitError then
         (.error (.exportError t), [min (5000 * 2 ^ (attempt - 1)) 60000])
       else (.error (.exportError t), [])
     | .error .generic => (.error .generic, []))
  | g + 1, attempt =>
    (match op attempt with
     | .ok v => (.ok v, [])
     | .error (.exportError t) =>
       if nonRetryable t then (.error (.exportError t), [])
       else if t = ExportErrorType.rateLimitError then
         let r := specRetryGo nonRetryable op backoffMs g (attempt + 1)
         (r.1, min (5000 * 2 ^ (attempt - 1)) 60000 :: r.2)
       else
         let r := specRetryGo nonRetryable op backoffMs g (attempt + 1)
         (r.1, min (backoffMs * 2 ^ (attempt - 1)) 10000 :: r.2)
     | .error .generic =>
       let r := specRetryGo nonRetryable op backoffMs g (attempt + 1)
       (r.1, min (backoffMs * 2 ^ (attempt - 1)) 10000 :: r.2))

/-- The behaviour described by the claim C3 as stated (non-retryable set
without `fileSystemError`); the fuel `maxRetries - 1` counts the attempts
after the first, so fuel `0` is the last attempt, on which the error is
re-raised (after its wait, for a rate-limit failure). -/
def specRetryClaim (op : Nat → Except JsError α) (maxRetries backoffMs : Nat) :
    Except JsError α × List Nat :=
  specRetryGo claimNonRetryable op backoffMs (maxRetries - 1) 1

/-- The behaviour of the amended claim C3 (non-retryable set including
`fileSystemError`, matching `shouldNotRetry`). -/
def specRetryAmended (op : Nat → Except JsError α) (maxRetries backoffMs : Nat) :
    Except JsError α × List Nat :=
  specRetryGo shouldNotRetry op backoffMs (maxRetries - 1) 1

/-! ### Export strategies (`MarkdownExporter`)

The file system and the Qoder API are modelled by an environment: a write or
directory creation fails exactly when the environment says so for that path
(the exporter wraps every thrown error uniformly), `fetch` gives the content
returned by `getWikiContent` (or `none` for a failed fetch, which the content
builders catch), and `now` is the `new Date().toISOString()` clock value. -/

structure FsEnv where
  dirFail : JStr → Bool
  writeFail : JStr → Bool
  hasApi : Bool
  fetch : JStr → Option JStr
  now : JStr

/-- Accumulated effects and counters of one strategy run. -/
structure ExpSt where
  writes : List (JStr × JStr)
  dirs : List JStr
  exported : Nat
  failed : Nat
  errs : List (ExportErrorType × Option JStr)

def ExpSt.init : ExpSt := ⟨[], [], 0, 0, []⟩

/-- `ExportResult` of `types/qoder.ts`. -/
structure ExportResult where
  success : Bool
  exportedCount : Nat
  failedCount : Nat
  errors : List (ExportErrorType × Option JStr)
  outputPath : JStr

/-- `fileService.createDirectory`: `none` models a thrown error. -/
def doCreateDir (env : FsEnv) (st : ExpSt) (p : JStr) : Option ExpSt :=
  if env.dirFail p then none else some { st with dirs := st.dirs ++ [p] }

/-- `fileService.writeFile`: `none` models a thrown error. -/
def doWrite (env : FsEnv) (st : ExpSt) (p c : JStr) : Option ExpSt :=
  if env.writeFail p then none else some { st with writes := st.writes ++ [(p, c)] }

/-- The `catch` block of a per-node `try`: `failedCount++` and push a
`CONVERSION_ERROR` for the node. -/
def nodeFail (st : ExpSt) (docId : JStr) : ExpSt :=
  { st with failed := st.failed + 1,
            errs := st.errs ++ [(ExportErrorType.conversionError, some docId)] }

/-- The title `` `${numberInfo.number}. ${numberInfo.cleanName}` `` (or the
raw name without number info). -/
def numberedTitle (c : WikiCatalog) (numberInfo : Option (JStr × JStr)) : JStr :=
  match numberInfo with
  | some (num, cn) => num ++ str ". " ++ cn
  | none => c.name

/-- The placeholder body shared by `createContentFlat`/`createContentTree`. -/
def placeholderContent (env : FsEnv) (c : WikiCatalog) (title : JStr) : JStr :=
  str "# " ++ title ++ str "\n\n**Document ID:** " ++ c.id ++
  str "\n**Status:** " ++ c.status ++
  str "\n\nThis document was exported from Qoder wiki catalog.\n\n*Generated on " ++
  env.now ++ str "*\n"

/-- `createContentFlat` and `createContentTree` (identical up to the options
object, which the content passes ignore): fetch by the decoded original id
when the API is present and the node is completed, fall back to the
placeholder on a failed fetch. -/
def createDocContent (env : FsEnv) (c : WikiCatalog)
    (numberInfo : Option (JStr × JStr)) : JStr :=
  let title := numberedTitle c numberInfo
  if env.hasApi && c.status = str "completed" then
    match env.fetch (getOriginalId c.id) with
    | some raw =>
      let content := processMarkdownContent raw
      match content with
      | '#' :: _ => content
      | _ => str "# " ++ title ++ str "\n\n" ++ content
    | none => placeholderContent env c title
  else placeholderContent env c title

/-- The per-child lines of the default README `## Contents` listing. -/
def readmeLines (numberInfo : Option (JStr × JStr)) : CatList → Nat → JStr
  | .nil, _ => []
  | .cons (.mk _i n _st sub) rest, idx =>
    let subNumberInfo := match numberInfo with
      | some (num, _) => num ++ '.' :: natToStr (idx + 1)
      | none => []
    let subName := cleanDocumentName n
    let linkName := if subNumberInfo = [] then subName
      else subNumberInfo ++ str ". " ++ subName
    (match sub with
     | some subl =>
       if subl.nonempty then
         str "- [" ++ linkName ++ str "](./" ++ linkName ++ str "/README.md)\n"
       else str "- [" ++ linkName ++ str "](./" ++ linkName ++ str ".md)\n"
     | none => str "- [" ++ linkName ++ str "](./" ++ linkName ++ str ".md)\n") ++
      readmeLines numberInfo rest (idx + 1)

/-- `createReadmeContent`.  In the tree strategy it is only called for nodes
with a nonempty child array, so the fetch branch (which requires no
children) never fires there; it is embedded nonetheless. -/
def createReadmeContent (env : FsEnv) (c : WikiCatalog)
    (numberInfo : Option (JStr × JStr)) : JStr :=
  let title := numberedTitle c numberInfo
  let subEmpty := match c.subCatalog with
    | some subl => !subl.nonempty
    | none => true
  if env.hasApi && c.status = str "completed" && subEmpty then
    match env.fetch (getOriginalId c.id) with
    | some raw =>
      let content := processMarkdownContent raw
      match content with
      | '#' :: _ => content
      | _ => str "# " ++ title ++ str "\n\n" ++ content
    | none => defaultReadme env c title numberInfo
  else defaultReadme env c title numberInfo
where
  defaultReadme (env : FsEnv) (c : WikiCatalog) (title : JStr)
      (numberInfo : Option (JStr × JStr)) : JStr :=
    str "# " ++ title ++ str "\n\nThis section contains documentation for " ++
    c.name ++ str ".\n\n" ++
    (match c.subCatalog with
     | some subl =>
       if subl.nonempty then
         str "## Contents\n\n" ++ readmeLines numberInfo subl 0 ++ str "\n"
       else []
     | none => []) ++
    str "*Generated on " ++ env.now ++ str "*\n"

/-- The folder or file base name of a node in the tree strategy. -/
def treeFolderName (nm : NumMap) (c : WikiCatalog) : JStr :=
  match jsMapGet nm c.id with
  | some (num, cn) => num ++ str ". " ++ cn
  | none => cleanDocumentName c.name

/-- `processLevel` of `MarkdownExporter.exportTreeStructure`: skip
non-completed nodes (`continue`), give a node with a nonempty child array a
directory plus `README.md` and recurse, give a childless node a single
`.md` file; a throw inside the `try` (directory creation or file write)
counts the node failed and processing continues with the next sibling. -/
def processLevel (env : FsEnv) (nm : NumMap) : CatList → JStr → ExpSt → ExpSt
  | .nil, _, st => st
  | .cons (.mk i n s sub) rest, basePath, st =>
    let c := WikiCatalog.mk i n s sub
    let st' :=
      if s = str "completed" then
        let folderName := treeFolderName nm c
        let folderPath := pathJoin basePath folderName
        match sub with
        | some subl =>
          if subl.nonempty then
            match doCreateDir env st folderPath with
            | none => nodeFail st i
            | some st1 =>
              match doWrite env st1 (pathJoin folderPath (str "README.md"))
                  (createReadmeContent env c (jsMapGet nm i)) with
              | none => nodeFail st1 i
              | some st2 =>
                let st3 := processLevel env nm subl folderPath st2
                { st3 with exported := st3.exported + 1 }
          else
            match doWrite env st (pathJoin basePath (folderName ++ str ".md"))
                (createDocContent env c (jsMapGet nm i)) with
            | none => nodeFail st i
            | some st1 => { st1 with exported := st1.exported + 1 }
        | none =>
          match doWrite env st (pathJoin basePath (folderName ++ str ".md"))
              (createDocContent env c (jsMapGet nm i)) with
          | none => nodeFail st i
          | some st1 => { st1 with exported := st1.exported + 1 }
      else st
    processLevel env nm rest basePath st'

/-- `MarkdownExporter.exportTreeStructure` (progress reporting is not
modelled; the options object is not consulted by this strategy). -/
def exportTreeStructure (env : FsEnv) (catalogs : CatList) (destination : JStr)
    (nm : NumMap) : ExportResult × ExpSt :=
  let st := processLevel env nm catalogs destination ExpSt.init
  ({ success := st.errs.isEmpty,
     exportedCount := st.exported,
     failedCount := st.failed,
     errors := st.errs,
     outputPath := destination }, st)

/-- The loop of `MarkdownExporter.exportFlatStructure` over the completed
nodes of the flattened hierarchy. -/
def exportFlatLoop (env : FsEnv) (nm : NumMap) (destination : JStr) :
    List WikiCatalog → ExpSt → ExpSt
  | [], st => st
  | c :: rest, st =>
    let filename := match jsMapGet nm c.id with
      | some (num, cn) => num ++ str ". " ++ cn ++ str ".md"
      | none => generateFilename c.name
    let filePath := pathJoin destination filename
    let content := createDocContent env c (jsMapGet nm c.id)
    let st1 := match doWrite env st filePath content with
      | some st1 => { st1 with exported := st1.exported + 1 }
      | none => nodeFail st c.id
    exportFlatLoop env nm destination rest st1

/-- `MarkdownExporter.exportFlatStructure`: flatten, keep completed nodes,
write one numbered file per node at the destination root.  No index file is
ever written (the options object is not consulted). -/
def exportFlatStructure (env : FsEnv) (catalogs : CatList) (destination : JStr)
    (_options : MarkdownExportOptions) (nm : NumMap) : ExportResult × ExpSt :=
  let completedCatalogs :=
    ((flattenCatalogHierarchy catalogs []).map Prod.fst).filter
      (fun c => c.status = str "completed")
  let st := exportFlatLoop env nm destination completedCatalogs ExpSt.init
  ({ success := st.errs.isEmpty,
     exportedCount := st.exported,
     failedCount := st.failed,
     errors := st.errs,
     outputPath := destination }, st)

/-! ### Document-based strategies (`MarkdownExporter.export`) -/

/-- One entry of the `createIndexFileForDocuments` listing (`number` is the
1-based position). -/
def indexLine (options : MarkdownExportOptions) (number : Nat) (d : WikiDocument) : JStr :=
  let cleanName := cleanDocumentName d.name
  let label := natToStr number ++ str ". " ++ cleanName
  match options.exportStructure with
  | ExportStructureType.flat =>
    str "- [" ++ label ++ str "](./" ++ label ++ str ".md)\n"
  | ExportStructureType.tree =>
    str "- [" ++ label ++ str "](./" ++ label ++ str "/README.md)\n"

def indexLines (options : MarkdownExportOptions) : Nat → List WikiDocument → JStr
  | _, [] => []
  | number, d :: rest => indexLine options number d ++ indexLines options (number + 1) rest

/-- `MarkdownExporter.createIndexFileForDocuments` content. -/
def createIndexContent (documents : List WikiDocument) (options : MarkdownExportOptions)
    (now : JStr) : JStr :=
  str "# Exported Documentation\n\nThis index provides navigation links to all exported documents.\n\n## Documents\n\n" ++
  indexLines options 1 documents ++
  str "\n---\n\n*Generated on " ++ now ++ str "*\n*Total documents: " ++
  natToStr documents.length ++ str "*\n"

/-- The exported body of one document in `exportDocumentsFlatStructure` /
`exportDocumentsTreeStructure`: the processed content, prefixed with a
numbered title when it does not already start with a heading. -/
def docBody (number : Nat) (d : WikiDocument) : JStr :=
  let content := processMarkdownContent d.content
  match content with
  | '#' :: _ => content
  | _ => str "# " ++ natToStr number ++ str ". " ++ cleanDocumentName d.name ++
      str "\n\n" ++ content

/-- The loop of `exportDocumentsFlatStructure`. -/
def docsFlatLoop (env : FsEnv) (destination : JStr) :
    Nat → List WikiDocument → ExpSt → ExpSt
  | _, [], st => st
  | number, d :: rest, st =>
    let filename := natToStr number ++ str ". " ++ cleanDocumentName d.name ++ str ".md"
    let st1 := match doWrite env st (pathJoin destination filename) (docBody number d) with
      | some st1 => { st1 with exported := st1.exported + 1 }
      | none => nodeFail st d.id
    docsFlatLoop env destination (number + 1) rest st1

/-- The index-file step shared by the two document-based strategies: on a
write failure an extra `FILE_SYSTEM_ERROR` is pushed without touching
`failedCount`. -/
def docsIndexStep (env : FsEnv) (destination : JStr) (documents : List WikiDocument)
    (options : MarkdownExportOptions) (st : ExpSt) : ExpSt :=
  if options.createIndexFile && !documents.isEmpty then
    match doWrite env st (pathJoin destination (str "index.md"))
        (createIndexContent documents options env.now) with
    | some st1 => st1
    | none => { st with errs := st.errs ++ [(ExportErrorType.fileSystemError, none)] }
  else st

/-- `MarkdownExporter.exportDocumentsFlatStructure`. -/
def exportDocumentsFlatStructure (env : FsEnv) (documents : List WikiDocument)
    (destination : JStr) (options : MarkdownExportOptions) : ExportResult × ExpSt :=
  let st := docsIndexStep env destination documents options
    (docsFlatLoop env destination 1 documents ExpSt.init)
  ({ success := st.errs.isEmpty,
     exportedCount := st.exported,
     failedCount := st.failed,
     errors := st.errs,
     outputPath := destination }, st)

/-- The loop of `exportDocumentsTreeStructure`: each document gets a numbered
folder containing a `README.md`. -/
def docsTreeLoop (env : FsEnv) (destination : JStr) :
    Nat → List WikiDocument → ExpSt → ExpSt
  | _, [], st => st
  | number, d :: rest, st =>
    let folderName := natToStr number ++ str ". " ++ cleanDocumentName d.name
    let folderPath := pathJoin destination folderName
    let st1 := match doCreateDir env st folderPath with
      | none => nodeFail st d.id
      | some sta =>
        match doWrite env sta (pathJoin folderPath (str "README.md")) (docBody number d) with
        | none => nodeFail sta d.id
        | some stb => { stb with exported := stb.exported + 1 }
    docsTreeLoop env destination (number + 1) rest st1

/-- `MarkdownExporter.exportDocumentsTreeStructure`. -/
def exportDocumentsTreeStructure (env : FsEnv) (documents : List WikiDocument)
    (destination : JStr) (options : MarkdownExportOptions) : ExportResult × ExpSt :=
  let st := docsIndexStep env destination documents options
    (docsTreeLoop env destination 1 documents ExpSt.init)
  ({ success := st.errs.isEmpty,
     exportedCount := st.exported,
     failedCount := st.failed,
     errors := st.errs,
     outputPath := destination }, st)

/-- The nodes the tree strategy actually attempts (enters the per-node
`try` for): completed nodes whose completed ancestors' directories and
READMEs were all created successfully.  Mirrors the control flow of
`processLevel`. -/
def treeAttempts (env : FsEnv) (nm : NumMap) : CatList → JStr → Nat
  | .nil, _ => 0
  | .cons (.mk i n s sub) rest, basePath =>
    (if s = str "completed" then
      let c := WikiCatalog.mk i n s sub
      let folderName := treeFolderName nm c
      let folderPath := pathJoin basePath folderName
      1 + (match sub with
        | some subl =>
          if subl.nonempty then
            if env.dirFail folderPath then 0
            else if env.writeFail (pathJoin folderPath (str "README.md")) then 0
            else treeAttempts env nm subl folderPath
          else 0
        | none => 0)
     else 0) + treeAttempts env nm rest basePath

/-- `CatList` append, for stating the subtree-skipping property. -/
def CatList.append : CatList → CatList → CatList
  | .nil, l2 => l2
  | .cons c l, l2 => .cons c (CatList.append l l2)

/-! ### Hierarchy reconstruction (`reconstructHierarchy`, part_007)

The JS loop mutates `rootDocuments` through the `currentParent` reference;
the embedding threads the forest instead: descending into a found node's
`subCatalog` becomes an in-place update of that node with the recursively
transformed child array, and `currentParent.push` becomes an append at the
current level.  When a found node has no `subCatalog` (it was created as a
leaf) the JS guard `existingNode?.subCatalog` fails and `currentParent`
does not move, so the remaining segments are processed at the SAME level —
`insertParts lk rest forest` renders exactly that. -/

/-- `createOriginalIdMap`: pre-order `Map.set` of every node keyed by its
id (an empty `subCatalog` array is truthy in JS, so `some .nil` recurses). -/
def createOriginalIdMap : CatList → List (JStr × WikiCatalog) → List (JStr × WikiCatalog)
  | .nil, m => m
  | .cons (.mk i n s sub) l, m =>
    let m1 := jsMapSet m i (WikiCatalog.mk i n s sub)
    let m2 := match sub with
      | some subl => createOriginalIdMap subl m1
      | none => m1
    createOriginalIdMap l m2

/-- `currentParent.find(doc => this.getOriginalId(doc.id) === currentId)`. -/
def findOrig (part : JStr) : CatList → Option WikiCatalog
  | .nil => none
  | .cons (.mk i n s sub) l =>
    if getOriginalId i = part then some (.mk i n s sub) else findOrig part l

/-- Replace the first node found by `findOrig` with the same node whose
(present) child array is transformed by `f`; the JS code only descends when
`existingNode.subCatalog` exists, so the `none` arm leaves the node as is. -/
def updateOrig (part : JStr) (f : CatList → CatList) : CatList → CatList
  | .nil => .nil
  | .cons (.mk i n s sub) l =>
    if getOriginalId i = part then
      match sub with
      | some subl => .cons (.mk i n s (some (f subl))) l
      | none => .cons (.mk i n s none) l
    else .cons (.mk i n s sub) (updateOrig part f l)

/-- The inner `for (let i = 0; i < pathParts.length; i++)` loop of
`reconstructHierarchy`, processing the decoded segments of one selected
document: empty segments are skipped; a found node is descended into only
when it carries a `subCatalog` (otherwise processing continues at the same
level); a missing id-map segment is skipped; a created node gets an empty
`subCatalog` exactly when it is not the last segment. -/
def insertParts (lk : List (JStr × WikiCatalog)) : List JStr → CatList → CatList
  | [], forest => forest
  | part :: rest, forest =>
    if part = [] then insertParts lk rest forest
    else
      match findOrig part forest with
      | some (.mk _ _ _ (some _)) =>
        if rest = [] then forest
        else updateOrig part (fun subl => insertParts lk rest subl) forest
      | some (.mk _ _ _ none) => insertParts lk rest forest
      | none =>
        match jsMapGet lk part with
        | some c =>
          if rest = [] then
            CatList.append forest (.cons (.mk part c.name c.status none) .nil)
          else
            CatList.append forest
              (.cons (.mk part c.name c.status (some (insertParts lk rest .nil))) .nil)
        | none => insertParts lk rest forest

/-- `QoderApiService.reconstructHierarchy`. -/
def reconstructHierarchy (originalDocuments : CatList)
    (selectedDocuments : List WikiCatalog) : CatList :=
  let originalIdMap := createOriginalIdMap originalDocuments []
  selectedDocuments.foldl
    (fun roots sel => insertParts originalIdMap (jsSplit '_' sel.id) roots) .nil

/-! #### Spec-side reconstruction (written from the spec's words, for the
C1 refinement): each decoded path is merged into the forest root-to-leaf,
re-using a sibling with the same id when present (attaching a child array
if it had none), appending new nodes at the end of the sibling list (first
insertion order), taking name and status from the id index, and dropping
the remainder of a path whose segment is absent from the id index (the
node is omitted). -/

def specFind (part : JStr) : CatList → Option WikiCatalog
  | .nil => none
  | .cons (.mk i n s sub) l =>
    if i = part then some (.mk i n s sub) else specFind part l

def specUpdate (part : JStr) (f : CatList → CatList) : CatList → CatList
  | .nil => .nil
  | .cons (.mk i n s sub) l =>
    if i = part then
      .cons (.mk i n s (some (f (match sub with
        | some subl => subl
        | none => .nil)))) l
    else .cons (.mk i n s sub) (specUpdate part f l)

def specInsert (lk : List (JStr × WikiCatalog)) : List JStr → CatList → CatList
  | [], forest => forest
  | part :: rest, forest =>
    match specFind part forest with
    | some _ =>
      if rest = [] then forest
      else specUpdate part (fun subl => specInsert lk rest subl) forest
    | none =>
      match jsMapGet lk part with
      | some c =>
        if rest = [] then
          CatList.append forest (.cons (.mk part c.name c.status none) .nil)
        else
          CatList.append forest
            (.cons (.mk part c.name c.status (some (specInsert lk rest .nil))) .nil)
      | none => forest

/-- Spec-side reconstruction over the selection sequence. -/
def specReconstruct (originalDocuments : CatList)
    (selectedDocuments : List WikiCatalog) : CatList :=
  let originalIdMap := createOriginalIdMap originalDocuments []
  selectedDocuments.foldl
    (fun roots sel => specInsert originalIdMap (jsSplit '_' sel.id) roots) .nil

/-- The root-to-node id paths of a forest, in pre-order. -/
def idPathsAux : CatList → List JStr → List (List JStr)
  | .nil, _ => []
  | .cons (.mk i _ _ sub) l, pre =>
    (pre ++ [i]) ::
      ((match sub with
        | some subl => idPathsAux subl (pre ++ [i])
        | none => []) ++ idPathsAux l pre)

def pathsOf (f : CatList) : List (List JStr) := idPathsAux f []

/-- `q` is a strict prefix of `p`. -/
def isStrictPrefix (q p : List JStr) : Prop :=
  q.length < p.length ∧ q = p.take q.length

/-- Every id of the forest is free of the separator. -/
def cleanIds : CatList → Prop
  | .nil => True
  | .cons (.mk i _ _ sub) l =>
    ('_' ∉ i) ∧ (match sub with
      | some subl => cleanIds subl
      | none => True) ∧ cleanIds l

/-- Every segment of the path is nonempty, separator-free and present in
the id index. -/
def validParts (lk : List (JStr × WikiCatalog)) (p : List JStr) : Prop :=
  ∀ part ∈ p, part ≠ [] ∧ '_' ∉ part ∧ (jsMapGet lk part).isSome = true

/-- The descent of path `p` through forest `F` never runs through a node
that has no child array (it may END on one): the situation in which the JS
code fails to descend. -/
def insOk : List JStr → CatList → Prop
  | [], _ => True
  | part :: rest, F =>
    match specFind part F with
    | none => True
    | some (.mk _ _ _ none) => rest = []
    | some (.mk _ _ _ (some subl)) => insOk rest subl

/-- The original tree of the C1 counterexample: `a(completed) -> [b(completed)]`. -/
def c1orig : CatList :=
  .cons (.mk (str "a") (str "A") (str "completed")
    (some (.cons (.mk (str "b") (str "B") (str "completed") none) .nil))) .nil

/-- The C1 counterexample selection: the parent (encoded `a`) selected
BEFORE the child (encoded `a_b`). -/
def c1sel : List WikiCatalog :=
  [.mk (str "a") (str "A") (str "completed") none,
   .mk (str "a_b") (str "B") (str "completed") none]

/-- The same two selections in the unproblematic order (child first). -/
def c1selGood : List WikiCatalog :=
  [.mk (str "a_b") (str "B") (str "completed") none,
   .mk (str "a") (str "A") (str "completed") none]

/-! ### Substring occurrence and concrete fixtures -/

/-- `needle` occurs as a contiguous substring of `hay`. -/
def occursIn (needle hay : JStr) : Prop := ∃ p s, hay = p ++ needle ++ s

/-- An environment without failures, without the Qoder API and with an empty
clock string. -/
def envPure : FsEnv := ⟨fun _ => false, fun _ => false, false, fun _ => none, []⟩

/-- The tree of concrete scenario 2: `Root(completed) -> [Child(completed),
Sibling(failed)]`. -/
def c2tree : CatList :=
  .cons (.mk (str "r") (str "Root") (str "completed") (some (.cons
    (.mk (str "c") (str "Child") (str "completed") none) (.cons
    (.mk (str "s") (str "Sibling") (str "failed") none) .nil)))) .nil

/-- A failed root holding a completed child. -/
def c2badTree : CatList :=
  .cons (.mk (str "r") (str "Root") (str "failed") (some (.cons
    (.mk (str "c") (str "Child") (str "completed") none) .nil))) .nil

/-- Options with `createIndexFile` enabled and the FLAT structure. -/
def flatIndexOptions : MarkdownExportOptions :=
  ⟨true, false, true, ExportStructureType.flat⟩

/-- A one-node completed catalog. -/
def oneCatalog : CatList :=
  .cons (.mk (str "a") (str "Alpha") (str "completed") none) .nil

/-- The document of concrete scenario 1. -/
def introDoc : WikiDocument :=
  ⟨str "1", str "Intro", str "# Intro\n\nSee [[Setup]].", str "completed"⟩

/-! ## Theorems -/

/-- `jsSplit` never returns the empty list. -/
theorem jsSplit_ne_nil (sep : Char) (s : JStr) : jsSplit sep s ≠ [] := by
  induction s with
  | nil => simp [jsSplit]
  | cons c cs ih =>
    by_cases h : c = sep
    · simp [jsSplit, h]
    · simp only [jsSplit, if_neg h]
      cases jsSplit sep cs with
      | nil => simp
      | cons w ws => simp

theorem jsSplit_no_sep {sep : Char} {s : JStr} (h : sep ∉ s) : jsSplit sep s = [s] := by
  induction s with
  | nil => rfl
  | cons c cs ih =>
    have hc : c ≠ sep := fun hcs => h (hcs ▸ List.mem_cons_self c cs)
    have hcs : sep ∉ cs := fun hm => h (List.mem_cons_of_mem c hm)
    simp [jsSplit, if_neg hc, ih hcs]

/-- A string containing the separator splits into at least two words. -/
theorem jsSplit_length_ge_two (sep : Char) (p b : JStr) :
    (jsSplit sep (p ++ sep :: b)).length ≥ 2 := by
  induction p with
  | nil =>
    simp only [List.nil_append, jsSplit, if_pos rfl, List.length_cons]
    have h := jsSplit_ne_nil sep b
    cases hx : jsSplit sep b with
    | nil => exact absurd hx h
    | cons x xs => simp
  | cons d p ihp =>
    by_cases hd : d = sep
    · simp only [List.cons_append, jsSplit, if_pos hd, List.length_cons]
      have h := jsSplit_ne_nil sep (p ++ sep :: b)
      cases hx : jsSplit sep (p ++ sep :: b) with
      | nil => exact absurd hx h
      | cons x xs => simp
    · simp only [List.cons_append, jsSplit, if_neg hd]
      cases hq : jsSplit sep (p ++ sep :: b) with
      | nil => exact absurd hq (jsSplit_ne_nil sep _)
      | cons x xs => rw [hq] at ihp; simpa using ihp

/-- Splitting a string with a separator inserted before a tail keeps the split
of the tail as the final words. -/
theorem jsSplit_append_sep (sep : Char) (p b : JStr) :
    (jsSplit sep (p ++ sep :: b)).getLastD [] = (jsSplit sep b).getLastD [] := by
  induction p with
  | nil =>
    simp only [List.nil_append, jsSplit, if_pos rfl]
    cases hb : jsSplit sep b with
    | nil => exact absurd hb (jsSplit_ne_nil sep b)
    | cons w ws => simp
  | cons c p ih =>
    by_cases hc : c = sep
    · simp only [List.cons_append, jsSplit, if_pos hc]
      cases hsplit : jsSplit sep (p ++ sep :: b) with
      | nil => exact absurd hsplit (jsSplit_ne_nil sep _)
      | cons w ws => rw [hsplit] at ih; simpa using ih
    · simp only [List.cons_append, jsSplit, if_neg hc]
      cases hsplit : jsSplit sep (p ++ sep :: b) with
      | nil => exact absurd hsplit (jsSplit_ne_nil sep _)
      | cons w ws =>
        rw [hsplit] at ih
        cases ws with
        | nil =>
          exfalso
          have h2 := jsSplit_length_ge_two sep p b
          rw [hsplit] at h2; simp at h2
        | cons w2 ws2 => simpa using ih

/-- An identifier without the separator decodes to itself. -/
theorem getOriginalId_no_sep {s : JStr} (h : '_' ∉ s) : getOriginalId s = s := by
  unfold getOriginalId
  rw [jsSplit_no_sep h]
  by_cases hs : s = [] <;> simp [hs]

/-- The fold of `encodeHierarchyPath` either yields the bare `ownId` (when every
accumulated component was empty) or a string of the shape `acc ++ '_' :: ownId`. -/
theorem encode_shape (ancestors : List JStr) (ownId : JStr) :
    encodeHierarchyPath ancestors ownId = ownId ∨
    ∃ p, encodeHierarchyPath ancestors ownId = p ++ '_' :: ownId := by
  unfold encodeHierarchyPath
  rw [List.foldl_append]
  generalize List.foldl (fun acc i => if acc = [] then i else acc ++ '_' :: i) [] ancestors = acc
  by_cases h : acc = []
  · left; simp [h]
  · right; exact ⟨acc, by simp [h]⟩

theorem retryGo_eq_spec (op : Nat → Except JsError α) (mR b : Nat) :
    ∀ g attempt le, g + 1 + attempt = mR + 1 →
      retryGo op mR b (g + 1) attempt le = specRetryGo shouldNotRetry op b g attempt := by
  intro g
  induction g with
  | zero =>
    intro attempt le hrel
    have hl : attempt = mR := by omega
    rw [retryGo.eq_2, specRetryGo.eq_1]
    cases hop : op attempt with
    | ok v => simp only [hop]
    | error e =>
      simp only [hop]
      cases e with
      | generic => simp [hl]
      | exportError t =>
        by_cases hnr : shouldNotRetry t
        · simp [hnr]
        · by_cases hrate : t = ExportErrorType.rateLimitError
          · subst hrate
            simp [hnr, hl, retryGo.eq_1, calculateRateLimitDelay]
          · simp [hnr, hrate, hl]
  | succ g ih =>
    intro attempt le hrel
    have hl : attempt ≠ mR := by omega
    rw [retryGo.eq_2, specRetryGo.eq_2]
    cases hop : op attempt with
    | ok v => simp only [hop]
    | error e =>
      simp only [hop]
      cases e with
      | generic =>
        simp only [if_neg hl]
        rw [ih (attempt + 1) (some JsError.generic) (by omega)]
      | exportError t =>
        by_cases hnr : shouldNotRetry t
        · simp [hnr]
        · by_cases hrate : t = ExportErrorType.rateLimitError
          · subst hrate
            simp only [if_neg hnr, if_pos rfl, calculateRateLimitDelay]
            rw [ih (attempt + 1) (some (JsError.exportError ExportErrorType.rateLimitError))
              (by omega)]
            simp
          · simp only [if_neg hnr, if_neg hrate, if_neg hl]
            rw [ih (attempt + 1) (some (JsError.exportError t)) (by omega)]

/-- C3 (amended): `retryWithBackoff` realises exactly the retry policy of the
claim once `fileSystemError` is added to the non-retryable kinds: a failure
of a non-retryable kind is re-raised immediately; a rate-limit failure waits
`min(5000 * 2^(attempt-1), 60000)` ms and consumes an attempt slot; every
other failure waits `min(backoffMs * 2^(attempt-1), 10000)` ms and is
retried, except on the last attempt, where the last error is re-raised. -/
theorem c3_retry_amended (op : Nat → Except JsError α) (maxRetries backoffMs : Nat)
    (h : 1 ≤ maxRetries) :
    retryWithBackoff op maxRetries backoffMs = specRetryAmended op maxRetries backoffMs := by
  unfold retryWithBackoff specRetryAmended
  obtain ⟨g, hg⟩ : ∃ g, maxRetries = g + 1 := ⟨maxRetries - 1, by omega⟩
  rw [hg, Nat.add_sub_cancel]
  exact retryGo_eq_spec op (g + 1) backoffMs g 1 none (by omega)

/-- C3 witness: an operation failing transiently twice succeeds on the third
attempt with the two claimed backoff delays, and the amended spec agrees. -/
theorem c3_retry_amended_witness :
    1 ≤ 3 ∧
    retryWithBackoff (fun a => if a < 3 then .error .generic else .ok (42 : Nat)) 3 10 =
      (.ok 42, [10, 20]) ∧
    specRetryAmended (fun a => if a < 3 then .error .generic else .ok (42 : Nat)) 3 10 =
      (.ok 42, [10, 20]) :=
  ⟨by decide, rfl, by
    rw [← c3_retry_amended (fun a => if a < 3 then .error .generic else .ok (42 : Nat)) 3 10
      (by decide)]
    rfl⟩

/-- C3 counterexample: a `fileSystemError` failure is re-raised immediately by
the code, while the claim as stated (whose non-retryable list omits the
file-system kind) prescribes a backoff retry that would succeed. -/
theorem c3_counterexample :
    retryWithBackoff (fun a => if a = 1 then .error (.exportError .fileSystemError)
      else .ok (7 : Nat)) 3 10 = (.error (.exportError .fileSystemError), []) ∧
    specRetryClaim (fun a => if a = 1 then .error (.exportError .fileSystemError)
      else .ok (7 : Nat)) 3 10 = (.ok 7, [10]) ∧
    (Except.error (JsError.exportError ExportErrorType.fileSystemError) : Except JsError Nat) ≠
      .ok 7 := by
  refine ⟨rfl, rfl, ?_⟩
  intro h
  cases h

/-- C7 (amended): round-trip of the hierarchy codec.  For every ancestor
sequence and every **non-empty** id not containing the separator `'_'`,
decoding the encoded identifier returns the original id; and every input
containing no separator decodes to itself unchanged (fails open).
The non-emptiness condition is forced by the `|| hierarchyId` fallback of
`getOriginalId`, which returns the whole encoded string when the final
segment is empty. -/
theorem c7_roundtrip_amended (ancestors : List JStr) (id : JStr)
    (hne : id ≠ []) (hsep : '_' ∉ id) :
    getOriginalId (encodeHierarchyPath ancestors id) = id ∧
    (∀ s : JStr, '_' ∉ s → getOriginalId s = s) := by
  refine ⟨?_, fun s hs => getOriginalId_no_sep hs⟩
  rcases encode_shape ancestors id with h | ⟨p, h⟩
  · rw [h, getOriginalId_no_sep hsep]
  · rw [h]
    unfold getOriginalId
    have hlast : (jsSplit '_' (p ++ '_' :: id)).getLastD [] = id := by
      rw [jsSplit_append_sep, jsSplit_no_sep hsep]; rfl
    simp only [hlast, if_neg hne]

/-- C7 witness: a concrete round trip through the codec. -/
theorem c7_roundtrip_amended_witness :
    (str "leaf" ≠ [] ∧ '_' ∉ str "leaf") ∧
    getOriginalId (encodeHierarchyPath [str "parent1", str "parent2"] (str "leaf")) = str "leaf" :=
  ⟨⟨by decide, by decide⟩,
    (c7_roundtrip_amended [str "parent1", str "parent2"] (str "leaf")
      (by decide) (by decide)).1⟩

/-- C7 counterexample: the claim as stated quantifies over every id not
containing the separator, which includes the empty id.  For the empty id the
decode of the encoded identifier is the whole encoded string `"a_"`, not the
original id `""`. -/
theorem c7_counterexample :
    getOriginalId (encodeHierarchyPath [str "a"] []) = str "a_" ∧ str "a_" ≠ ([] : JStr) := by
  constructor
  · rfl
  · decide

/-! ### Character-level facts for the name cleaner -/

theorem charToNat_ofNat {n : Nat} (h : n.isValidChar) : (Char.ofNat n).toNat = n := by
  rw [Char.ofNat, dif_pos h]
  rfl

theorem toUpper_spec (c : Char) :
    c.toUpper = c ∨ (65 ≤ c.toUpper.toNat ∧ c.toUpper.toNat ≤ 90) := by
  unfold Char.toUpper
  by_cases h : 97 ≤ c.toNat ∧ c.toNat ≤ 122
  · right
    rw [if_pos h, charToNat_ofNat (Or.inl (by omega))]
    omega
  · left
    rw [if_neg h]

theorem toLower_spec (c : Char) :
    c.toLower = c ∨ (97 ≤ c.toLower.toNat ∧ c.toLower.toNat ≤ 122) := by
  unfold Char.toLower
  by_cases h : 65 ≤ c.toNat ∧ c.toNat ≤ 90
  · right
    rw [if_pos h, charToNat_ofNat (Or.inl (by omega))]
    omega
  · left
    rw [if_neg h]

theorem toUpper_id_of_lt {c : Char} (h : c.toNat < 97) : c.toUpper = c := by
  unfold Char.toUpper
  rw [if_neg (by omega)]

theorem toLower_id_of_gt {c : Char} (h : 90 < c.toNat) : c.toLower = c := by
  unfold Char.toLower
  rw [if_neg (by omega)]

theorem toUpper_idem (c : Char) : c.toUpper.toUpper = c.toUpper := by
  rcases toUpper_spec c with h | ⟨h1, h2⟩
  · rw [h]; exact h
  · exact toUpper_id_of_lt (by omega)

theorem toLower_idem (c : Char) : c.toLower.toLower = c.toLower := by
  rcases toLower_spec c with h | ⟨h1, h2⟩
  · rw [h]; exact h
  · exact toLower_id_of_gt (by omega)

theorem isWs_false_of_ge {c : Char} (h : 33 ≤ c.toNat) : isWs c = false := by
  simp only [isWs, Bool.or_eq_false_iff, decide_eq_false_iff_not]
  refine ⟨⟨⟨⟨⟨?_, ?_⟩, ?_⟩, ?_⟩, ?_⟩, ?_⟩ <;>
    · intro hc
      subst hc
      exact absurd h (by decide)

theorem ne_of_toNat_ne {c d : Char} (h : c.toNat ≠ d.toNat) : c ≠ d :=
  fun he => h (he ▸ rfl)

theorem toUpper_notWs {c : Char} (h : isWs c = false) : isWs c.toUpper = false := by
  rcases toUpper_spec c with he | ⟨h1, h2⟩
  · rw [he]; exact h
  · exact isWs_false_of_ge (by omega)

theorem toLower_notWs {c : Char} (h : isWs c = false) : isWs c.toLower = false := by
  rcases toLower_spec c with he | ⟨h1, h2⟩
  · rw [he]; exact h
  · exact isWs_false_of_ge (by omega)

theorem toUpper_notUD {c : Char} (h : c ≠ '_' ∧ c ≠ '-') :
    c.toUpper ≠ '_' ∧ c.toUpper ≠ '-' := by
  rcases toUpper_spec c with he | ⟨h1, h2⟩
  · rw [he]; exact h
  · have e1 : ('_' : Char).toNat = 95 := rfl
    have e2 : ('-' : Char).toNat = 45 := rfl
    exact ⟨ne_of_toNat_ne (by omega), ne_of_toNat_ne (by omega)⟩

theorem toLower_notUD {c : Char} (h : c ≠ '_' ∧ c ≠ '-') :
    c.toLower ≠ '_' ∧ c.toLower ≠ '-' := by
  rcases toLower_spec c with he | ⟨h1, h2⟩
  · rw [he]; exact h
  · have e1 : ('_' : Char).toNat = 95 := rfl
    have e2 : ('-' : Char).toNat = 45 := rfl
    exact ⟨ne_of_toNat_ne (by omega), ne_of_toNat_ne (by omega)⟩

theorem toUpper_ne_space {c : Char} (h : c ≠ ' ') : c.toUpper ≠ ' ' := by
  rcases toUpper_spec c with he | ⟨h1, h2⟩
  · rw [he]; exact h
  · have e1 : (' ' : Char).toNat = 32 := rfl
    exact ne_of_toNat_ne (by omega)

theorem toLower_ne_space {c : Char} (h : c ≠ ' ') : c.toLower ≠ ' ' := by
  rcases toLower_spec c with he | ⟨h1, h2⟩
  · rw [he]; exact h
  · have e1 : (' ' : Char).toNat = 32 := rfl
    exact ne_of_toNat_ne (by omega)

/-! ### Split, join and trim facts -/

/-- Pieces of a split never contain the separator. -/
theorem not_mem_of_mem_jsSplit {sep : Char} {s w : JStr} (hw : w ∈ jsSplit sep s) :
    sep ∉ w := by
  induction s generalizing w with
  | nil =>
    simp [jsSplit] at hw
    simp [hw]
  | cons a cs ih =>
    by_cases ha : a = sep
    · simp only [jsSplit, if_pos ha, List.mem_cons] at hw
      rcases hw with rfl | hw
      · simp
      · exact ih hw
    · simp only [jsSplit, if_neg ha] at hw
      cases hx : jsSplit sep cs with
      | nil => exact absurd hx (jsSplit_ne_nil sep cs)
      | cons x xs =>
        rw [hx] at hw
        rcases List.mem_cons.mp hw with rfl | hw
        · intro hmem
          rcases List.mem_cons.mp hmem with rfl | hmem
          · exact ha rfl
          · exact ih (hx ▸ List.mem_cons_self x xs) hmem
        · exact ih (hx ▸ List.mem_cons_of_mem x hw)

/-- Splitting a separator-free word glued before `sep :: rest` peels the word. -/
theorem jsSplit_append {sep : Char} {w : JStr} (hsep : sep ∉ w) (rest : JStr) :
    jsSplit sep (w ++ sep :: rest) = w :: jsSplit sep rest := by
  induction w with
  | nil => simp [jsSplit]
  | cons c w ih =>
    have hc : c ≠ sep := fun h => hsep (h ▸ List.mem_cons_self c w)
    have hw : sep ∉ w := fun h => hsep (List.mem_cons_of_mem c h)
    simp only [List.cons_append, jsSplit, if_neg hc, List.append_eq]
    rw [ih hw]

/-- `split` is a left inverse of `join` on nonempty lists of separator-free
words. -/
theorem jsSplit_jsJoin {sep : Char} :
    ∀ {ws : List JStr}, ws ≠ [] → (∀ w ∈ ws, sep ∉ w) →
      jsSplit sep (jsJoin sep ws) = ws
  | [], h, _ => absurd rfl h
  | [w], _, hsep => by
    simp only [jsJoin]
    exact jsSplit_no_sep (hsep w (List.mem_singleton_self w))
  | w :: w2 :: ws, _, hsep => by
    have h1 : jsJoin sep (w :: w2 :: ws) = w ++ sep :: jsJoin sep (w2 :: ws) := rfl
    rw [h1, jsSplit_append (hsep w (List.mem_cons_self _ _)),
      jsSplit_jsJoin (by simp) (fun x hx => hsep x (List.mem_cons_of_mem w hx))]

/-- `capWord` is idempotent. -/
theorem capWord_idem (w : JStr) : capWord (capWord w) = capWord w := by
  cases w with
  | nil => rfl
  | cons c cs =>
    simp only [capWord, toUpper_idem, List.map_map, List.cons.injEq, true_and]
    exact List.map_congr_left (fun a _ => toLower_idem a)

theorem mem_capWord {w : JStr} {c : Char} (hc : c ∈ capWord w) :
    ∃ d ∈ w, c = d.toUpper ∨ c = d.toLower := by
  cases w with
  | nil => simp [capWord] at hc
  | cons a cs =>
    simp only [capWord, List.mem_cons] at hc
    rcases hc with rfl | hc
    · exact ⟨a, List.mem_cons_self a cs, Or.inl rfl⟩
    · obtain ⟨d, hd, rfl⟩ := List.mem_map.mp hc
      exact ⟨d, List.mem_cons_of_mem a hd, Or.inr rfl⟩

theorem mem_jsJoin {sep : Char} :
    ∀ {ws : List JStr} {c : Char}, c ∈ jsJoin sep ws →
      c = sep ∨ ∃ w ∈ ws, c ∈ w
  | [], c, hc => by simp [jsJoin] at hc
  | [w], c, hc => Or.inr ⟨w, List.mem_singleton_self w, hc⟩
  | w :: w2 :: ws, c, hc => by
    have h1 : jsJoin sep (w :: w2 :: ws) = w ++ sep :: jsJoin sep (w2 :: ws) := rfl
    rw [h1] at hc
    rcases List.mem_append.mp hc with hc | hc
    · exact Or.inr ⟨w, List.mem_cons_self _ _, hc⟩
    · rcases List.mem_cons.mp hc with rfl | hc
      · exact Or.inl rfl
      · rcases mem_jsJoin hc with h | ⟨x, hx, hcx⟩
        · exact Or.inl h
        · exact Or.inr ⟨x, List.mem_cons_of_mem w hx, hcx⟩

theorem mem_of_mem_jsSplit {sep : Char} {s w : JStr} (hw : w ∈ jsSplit sep s)
    {c : Char} (hc : c ∈ w) : c ∈ s := by
  induction s generalizing w with
  | nil =>
    simp [jsSplit] at hw
    subst hw
    simp at hc
  | cons a cs ih =>
    by_cases ha : a = sep
    · simp only [jsSplit, if_pos ha, List.mem_cons] at hw
      rcases hw with rfl | hw
      · simp at hc
      · exact List.mem_cons_of_mem a (ih hw hc)
    · simp only [jsSplit, if_neg ha] at hw
      cases hx : jsSplit sep cs with
      | nil => exact absurd hx (jsSplit_ne_nil sep cs)
      | cons x xs =>
        rw [hx] at hw
        rcases List.mem_cons.mp hw with rfl | hw
        · rcases List.mem_cons.mp hc with rfl | hc
          · exact List.mem_cons_self c cs
          · exact List.mem_cons_of_mem a (ih (hx ▸ List.mem_cons_self x xs) hc)
        · exact List.mem_cons_of_mem a (ih (hx ▸ List.mem_cons_of_mem x hw) hc)

/-- The head of a `dropWhile` residue falsifies the predicate. -/
theorem head_dropWhile {p : Char → Bool} {l : JStr} {c : Char}
    (h : (l.dropWhile p).head? = some c) : p c = false := by
  induction l with
  | nil => simp [List.dropWhile] at h
  | cons a l ih =>
    by_cases hp : p a
    · rw [List.dropWhile_cons_of_pos hp] at h
      exact ih h
    · rw [List.dropWhile_cons_of_neg hp] at h
      simp at h
      subst h
      simpa using hp

/-- A nonempty `dropWhile` residue keeps the last element. -/
theorem getLast_dropWhile {p : Char → Bool} {l : JStr}
    (h : l.dropWhile p ≠ []) : (l.dropWhile p).getLast? = l.getLast? := by
  induction l with
  | nil => simp [List.dropWhile] at h
  | cons a l ih =>
    by_cases hp : p a
    · rw [List.dropWhile_cons_of_pos hp] at h ⊢
      have hl : l ≠ [] := by
        intro he
        subst he
        simp [List.dropWhile] at h
      have hcons : (a :: l).getLast? = l.getLast? := by
        cases hx : l.getLast? with
        | none => exact absurd (List.getLast?_eq_none_iff.mp hx) hl
        | some x => rw [List.getLast?_cons, hx]; rfl
      rw [ih h, hcons]
    · rw [List.dropWhile_cons_of_neg hp]

/-- A nonempty trim result starts with a non-whitespace character. -/
theorem jsTrim_head {s : JStr} (h : jsTrim s ≠ []) :
    ∃ c, (jsTrim s).head? = some c ∧ isWs c = false := by
  unfold jsTrim at h ⊢
  set y := (s.dropWhile (isWs ·)).reverse.dropWhile (isWs ·) with hy
  have hyne : y ≠ [] := by
    intro he
    rw [he] at h
    simp at h
  have h1 : y.getLast? = (s.dropWhile (isWs ·)).head? := by
    rw [getLast_dropWhile hyne, List.getLast?_reverse]
  cases hx : y.getLast? with
  | none => exact absurd (List.getLast?_eq_none_iff.mp hx) hyne
  | some c =>
    refine ⟨c, ?_, ?_⟩
    · rw [List.head?_reverse, hx]
    · exact head_dropWhile (h1 ▸ hx)

/-- A nonempty trim result ends with a non-whitespace character. -/
theorem jsTrim_getLast {s : JStr} (h : jsTrim s ≠ []) :
    ∃ c, (jsTrim s).getLast? = some c ∧ isWs c = false := by
  unfold jsTrim at h ⊢
  set y := (s.dropWhile (isWs ·)).reverse.dropWhile (isWs ·) with hy
  cases hx : y.head? with
  | none =>
    rw [List.head?_eq_none_iff] at hx
    rw [hx] at h
    simp at h
  | some c =>
    refine ⟨c, ?_, head_dropWhile hx⟩
    rw [List.getLast?_reverse, hx]

/-- `dropWhile` is the identity when the head falsifies the predicate. -/
theorem dropWhile_id_of_head {p : Char → Bool} {l : JStr}
    (h : ∀ c, l.head? = some c → p c = false) : l.dropWhile p = l := by
  cases l with
  | nil => rfl
  | cons a l =>
    have := h a rfl
    rw [List.dropWhile_cons_of_neg (by simp [this])]

/-- `jsTrim` fixes a string whose two ends are not whitespace. -/
theorem jsTrim_id {l : JStr}
    (h1 : ∀ c, l.head? = some c → isWs c = false)
    (h2 : ∀ c, l.getLast? = some c → isWs c = false) : jsTrim l = l := by
  unfold jsTrim
  rw [dropWhile_id_of_head h1]
  rw [dropWhile_id_of_head (by
    intro c hc
    rw [List.head?_reverse] at hc
    exact h2 c hc)]
  exact List.reverse_reverse l

/-- `replaceUD` fixes a string without underscores and dashes. -/
theorem replaceUD_id {l : JStr} (h : ∀ c ∈ l, c ≠ '_' ∧ c ≠ '-') :
    replaceUD l = l := by
  unfold replaceUD
  rw [show l.map (fun c => if c = '_' || c = '-' then ' ' else c) =
      l.map id from List.map_congr_left ?_, List.map_id]
  intro a ha
  have := h a ha
  simp [this.1, this.2]

theorem mem_jsTrim {s : JStr} {c : Char} (h : c ∈ jsTrim s) : c ∈ s := by
  unfold jsTrim at h
  rw [List.mem_reverse] at h
  have h2 := (List.dropWhile_sublist (l := (s.dropWhile (isWs ·)).reverse)
    (p := (isWs ·))).subset h
  rw [List.mem_reverse] at h2
  exact (List.dropWhile_sublist (l := s) (p := (isWs ·))).subset h2

theorem notUD_replaceUD {u : JStr} : ∀ c ∈ replaceUD u, c ≠ '_' ∧ c ≠ '-' := by
  intro c hc
  obtain ⟨d, _, rfl⟩ := List.mem_map.mp hc
  by_cases hd : d = '_' || d = '-'
  · simp only [if_pos hd]
    exact ⟨by decide, by decide⟩
  · simp only [if_neg hd]
    simp only [Bool.or_eq_true, decide_eq_true_eq, not_or] at hd
    exact hd

theorem jsSplit_head {sep : Char} {s : JStr} {c : Char}
    (h : s.head? = some c) (hc : c ≠ sep) :
    ∃ w ws, jsSplit sep s = (c :: w) :: ws := by
  cases s with
  | nil => simp at h
  | cons a cs =>
    simp only [List.head?_cons, Option.some.injEq] at h
    subst h
    simp only [jsSplit, if_neg hc]
    cases hx : jsSplit sep cs with
    | nil => exact absurd hx (jsSplit_ne_nil sep cs)
    | cons x xs => exact ⟨x, xs, rfl⟩

theorem jsSplit_getLast {sep : Char} :
    ∀ {s : JStr} {c : Char}, s.getLast? = some c → c ≠ sep →
      ∃ w, (jsSplit sep s).getLast? = some w ∧ w.getLast? = some c
  | [], c, h, _ => by simp at h
  | [a], c, h, hc => by
    obtain rfl : a = c := by simpa using h
    simp only [jsSplit, if_neg hc]
    exact ⟨[a], rfl, rfl⟩
  | a :: b :: s, c, h, hc => by
    rw [List.getLast?_cons_cons] at h
    obtain ⟨w, hw, hwc⟩ := jsSplit_getLast (s := b :: s) h hc
    have houter : jsSplit sep (a :: b :: s) =
        if a = sep then [] :: jsSplit sep (b :: s)
        else
          match jsSplit sep (b :: s) with
          | [] => [[a]]
          | x :: xs => (a :: x) :: xs := rfl
    cases hx : jsSplit sep (b :: s) with
    | nil => exact absurd hx (jsSplit_ne_nil sep _)
    | cons x xs =>
      rw [hx] at houter hw
      by_cases ha : a = sep
      · rw [houter, if_pos ha, List.getLast?_cons_cons]
        exact ⟨w, hw, hwc⟩
      · rw [houter, if_neg ha]
        cases xs with
        | nil =>
          obtain rfl : x = w := by simpa using hw
          refine ⟨a :: x, by rfl, ?_⟩
          cases hx0 : x with
          | nil =>
            rw [hx0] at hwc
            simp at hwc
          | cons x0 xr =>
            rw [hx0] at hwc
            rw [List.getLast?_cons_cons]
            exact hwc
        | cons x2 xs2 =>
          rw [List.getLast?_cons_cons] at hw
          refine ⟨w, ?_, hwc⟩
          show ((a :: x) :: x2 :: xs2).getLast? = some w
          rw [List.getLast?_cons_cons]
          exact hw

theorem jsJoin_head {sep : Char} {w : JStr} (hw : w ≠ []) (ws : List JStr) :
    (jsJoin sep (w :: ws)).head? = w.head? := by
  cases ws with
  | nil => rfl
  | cons w2 ws =>
    have h1 : jsJoin sep (w :: w2 :: ws) = w ++ sep :: jsJoin sep (w2 :: ws) := rfl
    rw [h1, List.head?_append_of_ne_nil _ hw]

theorem jsJoin_getLast {sep : Char} :
    ∀ {ws : List JStr} {w : JStr}, ws.getLast? = some w → w ≠ [] →
      (jsJoin sep ws).getLast? = w.getLast?
  | [], w, h, _ => by simp at h
  | [x], w, h, hw => by
    obtain rfl : x = w := by simpa using h
    rfl
  | x :: y :: ws, w, h, hw => by
    rw [List.getLast?_cons_cons] at h
    have h1 : jsJoin sep (x :: y :: ws) = x ++ sep :: jsJoin sep (y :: ws) := rfl
    have hrec := @jsJoin_getLast sep (y :: ws) w h hw
    have hne : jsJoin sep (y :: ws) ≠ [] := by
      intro he
      have hnone : (jsJoin sep (y :: ws)).getLast? = none := by rw [he]; rfl
      rw [hrec] at hnone
      exact hw (List.getLast?_eq_none_iff.mp hnone)
    rw [h1, List.getLast?_append_of_ne_nil _ (by simp)]
    cases hj : jsJoin sep (y :: ws) with
    | nil => exact absurd hj hne
    | cons j js =>
      rw [hj] at hrec
      rw [List.getLast?_cons_cons]
      exact hrec

theorem capWord_ne_nil {w : JStr} (h : w ≠ []) : capWord w ≠ [] := by
  cases w with
  | nil => exact absurd rfl h
  | cons c cs => simp [capWord]

theorem capWord_getLast {w : JStr} {e : Char} (h : w.getLast? = some e) :
    (capWord w).getLast? = some e.toUpper ∨ (capWord w).getLast? = some e.toLower := by
  cases w with
  | nil => simp at h
  | cons c cs =>
    cases cs with
    | nil =>
      simp only [List.getLast?_singleton, Option.some.injEq] at h
      subst h
      left
      rfl
    | cons c2 cs2 =>
      rw [List.getLast?_cons_cons] at h
      right
      show (c.toUpper :: (c2 :: cs2).map Char.toLower).getLast? = _
      rw [List.getLast?_cons, List.getLast?_map, h]
      rfl

/-- Structural facts about a freshly cleaned name: it contains no underscore
or dash, both ends are not whitespace, and re-title-casing fixes it. -/
theorem clean_core_props (u : JStr)
    (hne : jsJoin ' ' ((jsSplit ' ' (jsTrim (replaceUD u))).map capWord) ≠ []) :
    (∀ c ∈ jsJoin ' ' ((jsSplit ' ' (jsTrim (replaceUD u))).map capWord),
      c ≠ '_' ∧ c ≠ '-') ∧
    (∀ c, (jsJoin ' ' ((jsSplit ' ' (jsTrim (replaceUD u))).map capWord)).head? = some c →
      isWs c = false) ∧
    (∀ c, (jsJoin ' ' ((jsSplit ' ' (jsTrim (replaceUD u))).map capWord)).getLast? = some c →
      isWs c = false) ∧
    jsJoin ' ' ((jsSplit ' '
        (jsJoin ' ' ((jsSplit ' ' (jsTrim (replaceUD u))).map capWord))).map capWord) =
      jsJoin ' ' ((jsSplit ' ' (jsTrim (replaceUD u))).map capWord) := by
  set t := jsTrim (replaceUD u) with ht
  set y := jsJoin ' ' ((jsSplit ' ' t).map capWord) with hydef
  have htne : t ≠ [] := by
    intro he
    rw [he] at hydef
    have : y = [] := by rw [hydef]; rfl
    exact hne this
  have mem_y : ∀ c ∈ y, c = ' ' ∨ ∃ d, (d ∈ t) ∧ (c = d.toUpper ∨ c = d.toLower) := by
    intro c hc
    rcases mem_jsJoin (hydef ▸ hc) with rfl | ⟨w', hw', hcw⟩
    · exact Or.inl rfl
    · obtain ⟨w0, hw0, rfl⟩ := List.mem_map.mp hw'
      obtain ⟨d, hd, hcd⟩ := mem_capWord hcw
      exact Or.inr ⟨d, mem_of_mem_jsSplit hw0 hd, hcd⟩
  refine ⟨?_, ?_, ?_, ?_⟩
  · intro c hc
    rcases mem_y c hc with rfl | ⟨d, hd, hcd⟩
    · exact ⟨by decide, by decide⟩
    · have hdu := notUD_replaceUD d (mem_jsTrim (ht ▸ hd))
      rcases hcd with rfl | rfl
      · exact toUpper_notUD hdu
      · exact toLower_notUD hdu
  · intro c hc
    obtain ⟨c0, hc0, hc0ws⟩ := jsTrim_head (s := replaceUD u) (ht ▸ htne)
    have hc0ne : c0 ≠ ' ' := by
      intro he
      rw [he] at hc0ws
      exact absurd hc0ws (by decide)
    obtain ⟨w, ws, hsplit⟩ := @jsSplit_head ' ' _ _ (ht ▸ hc0) hc0ne
    rw [hydef, hsplit] at hc
    rw [List.map_cons, jsJoin_head (capWord_ne_nil (by simp))] at hc
    show isWs c = false
    have : (capWord (c0 :: w)).head? = some c0.toUpper := rfl
    rw [this] at hc
    cases hc
    exact toUpper_notWs hc0ws
  · intro c hc
    obtain ⟨cL, hcL, hcLws⟩ := jsTrim_getLast (s := replaceUD u) (ht ▸ htne)
    have hcLne : cL ≠ ' ' := by
      intro he
      rw [he] at hcLws
      exact absurd hcLws (by decide)
    obtain ⟨w, hw, hwc⟩ := jsSplit_getLast (ht ▸ hcL) hcLne
    have hwne : w ≠ [] := by
      intro he
      rw [he] at hwc
      simp at hwc
    have hmap : ((jsSplit ' ' t).map capWord).getLast? = some (capWord w) := by
      rw [List.getLast?_map, hw]
      rfl
    have hjoin := @jsJoin_getLast ' ' _ _ hmap (capWord_ne_nil hwne)
    rw [hydef, hjoin] at hc
    rcases capWord_getLast hwc with he | he
    · rw [he] at hc
      cases hc
      exact toUpper_notWs hcLws
    · rw [he] at hc
      cases hc
      exact toLower_notWs hcLws
  · have hpieces : ∀ w' ∈ (jsSplit ' ' t).map capWord, ' ' ∉ w' := by
      intro w' hw' hmem
      obtain ⟨w0, hw0, rfl⟩ := List.mem_map.mp hw'
      obtain ⟨d, hd, hcd⟩ := mem_capWord hmem
      have hdne : d ≠ ' ' := fun he => not_mem_of_mem_jsSplit hw0 (he ▸ hd)
      rcases hcd with he | he
      · exact toUpper_ne_space hdne he.symm
      · exact toLower_ne_space hdne he.symm
    have hlistne : (jsSplit ' ' t).map capWord ≠ [] := by
      have := jsSplit_ne_nil ' ' t
      intro he
      rw [List.map_eq_nil_iff] at he
      exact this he
    have hcc : List.map (capWord ∘ capWord) (jsSplit ' ' t) =
        List.map capWord (jsSplit ' ' t) :=
      List.map_congr_left (fun w _ => capWord_idem w)
    conv_lhs => rw [hydef, jsSplit_jsJoin hlistne hpieces, List.map_map, hcc]

/-- C6 (amended): `cleanDocumentName` is idempotent on every input whose
cleaned name is itself unchanged by the leading/trailing token-stripping and
the leading-number-stripping passes.  (The counterexample shows the general
claim fails exactly when a second pass strips again.) -/
theorem c6_cleanName_amended (x : JStr)
    (h1 : stripLeadingTok (cleanDocumentName x) = cleanDocumentName x)
    (h2 : stripTrailingTok (cleanDocumentName x) = cleanDocumentName x)
    (h3 : stripLeadingNum (cleanDocumentName x) = cleanDocumentName x) :
    cleanDocumentName (cleanDocumentName x) = cleanDocumentName x := by
  have expand : ∀ z : JStr, cleanDocumentName z =
      (if jsJoin ' ' ((jsSplit ' '
          (jsTrim (replaceUD (stripLeadingNum (stripTrailingTok
            (stripLeadingTok z)))))).map capWord) = []
       then str "Untitled"
       else jsJoin ' ' ((jsSplit ' '
          (jsTrim (replaceUD (stripLeadingNum (stripTrailingTok
            (stripLeadingTok z)))))).map capWord)) := fun z => rfl
  by_cases hb : jsJoin ' ' ((jsSplit ' '
      (jsTrim (replaceUD (stripLeadingNum (stripTrailingTok
        (stripLeadingTok x)))))).map capWord) = []
  · have hx : cleanDocumentName x = str "Untitled" := by
      rw [expand x, if_pos hb]
    rw [hx]
    decide
  · have hx : cleanDocumentName x = jsJoin ' ' ((jsSplit ' '
        (jsTrim (replaceUD (stripLeadingNum (stripTrailingTok
          (stripLeadingTok x)))))).map capWord) := by
      rw [expand x, if_neg hb]
    obtain ⟨hud, hhead, hlast, hfix⟩ :=
      clean_core_props (stripLeadingNum (stripTrailingTok (stripLeadingTok x))) hb
    rw [expand (cleanDocumentName x), h1, h2, h3]
    rw [replaceUD_id (by rw [hx]; exact hud)]
    rw [jsTrim_id (by rw [hx]; exact hhead) (by rw [hx]; exact hlast)]
    rw [hx, hfix, if_neg hb]

/-- C6 witness: a concrete name whose cleaned form is a fixpoint of the three
stripping passes, so cleaning twice equals cleaning once. -/
theorem c6_cleanName_amended_witness :
    (stripLeadingTok (cleanDocumentName (str "hello_world")) =
        cleanDocumentName (str "hello_world") ∧
      stripTrailingTok (cleanDocumentName (str "hello_world")) =
        cleanDocumentName (str "hello_world") ∧
      stripLeadingNum (cleanDocumentName (str "hello_world")) =
        cleanDocumentName (str "hello_world")) ∧
    cleanDocumentName (cleanDocumentName (str "hello_world")) =
      cleanDocumentName (str "hello_world") :=
  ⟨⟨by decide, by decide, by decide⟩,
    c6_cleanName_amended (str "hello_world") (by decide) (by decide) (by decide)⟩

/-- C6 counterexample: cleaning `"2 Documents"` yields `"Documents"`, but a
second cleaning strips the now-leading `Document` token and yields `"S"`:
`cleanName` is not idempotent. -/
theorem c6_counterexample :
    cleanDocumentName (str "2 Documents") = str "Documents" ∧
    cleanDocumentName (cleanDocumentName (str "2 Documents")) = str "S" ∧
    str "S" ≠ str "Documents" := by
  refine ⟨by decide, by decide, by decide⟩

/-! ### Numbering and flattening theorems -/

theorem positionNumber_append_single (path : List Nat) (li : Nat) :
    positionNumber (path ++ [li]) =
      (match path with
       | [] => natToStr li
       | _ :: _ => positionNumber path ++ '.' :: natToStr li) := by
  induction path with
  | nil => rfl
  | cons a p ih =>
    cases p with
    | nil => rfl
    | cons b p2 =>
      show natToStr a ++ '.' :: positionNumber ((b :: p2) ++ [li]) = _
      rw [ih]
      simp [positionNumber]

theorem assignLevel_eq_fold :
    ∀ (items : CatList) (path : List Nat) (li : Nat) (m : NumMap),
      (assignLevel (match path with
        | [] => none
        | _ :: _ => some (positionNumber path)) items li m).2 =
      (indexedLevel path items li).foldl
        (fun m p => jsMapSet m p.2.id (positionNumber p.1, cleanDocumentName p.2.name)) m
  | .nil, path, li, m => by
    cases path <;> simp [assignLevel, indexedLevel]
  | .cons (.mk i n st sub) rest, path, li, m => by
    have hid : (WikiCatalog.mk i n st sub).id = i := rfl
    have hname : (WikiCatalog.mk i n st sub).name = n := rfl
    cases path with
    | nil =>
      cases sub with
      | none =>
        simp only [assignLevel, indexedLevel, List.foldl_cons, List.foldl_append, hid, hname,
          List.nil_append, List.foldl_nil]
        exact assignLevel_eq_fold rest [] (li + 1) _
      | some subl =>
        simp only [assignLevel, indexedLevel, List.foldl_cons, List.foldl_append, hid, hname,
          List.nil_append]
        rw [assignLevel_eq_fold rest [] (li + 1)]
        congr 1
        cases subl with
        | nil => rfl
        | cons c0 l0 =>
          simp only [CatList.nonempty, if_pos rfl]
          have := assignLevel_eq_fold (CatList.cons c0 l0) [li] 1
            (jsMapSet m i (natToStr li, cleanDocumentName n))
          simp only [positionNumber] at this
          exact this
    | cons a p =>
      have hnum : positionNumber (a :: p) ++ '.' :: natToStr li =
          positionNumber ((a :: p) ++ [li]) := by
        rw [positionNumber_append_single]
      cases sub with
      | none =>
        simp only [assignLevel, indexedLevel, List.foldl_cons, List.foldl_append, hid, hname,
          List.foldl_nil, List.nil_append, hnum]
        exact assignLevel_eq_fold rest (a :: p) (li + 1) _
      | some subl =>
        simp only [assignLevel, indexedLevel, List.foldl_cons, List.foldl_append, hid, hname,
          hnum]
        rw [assignLevel_eq_fold rest (a :: p) (li + 1)]
        congr 1
        cases subl with
        | nil => rfl
        | cons c0 l0 =>
          simp only [CatList.nonempty, if_pos rfl]
          have := assignLevel_eq_fold (CatList.cons c0 l0) ((a :: p) ++ [li]) 1
            (jsMapSet m i (positionNumber ((a :: p) ++ [li]), cleanDocumentName n))
          simp only [List.cons_append] at this ⊢
          exact this

/-- C5: `assignDocumentNumbers` numbers the catalog forest exactly as the
claim describes: a depth-first pre-order traversal where siblings are
numbered `1, 2, 3, ...` at each level (the root level running a single
counter across all top-level entries of the invocation, reset per
invocation), a child receives `{parentNumber}.{indexWithinParent}`, and each
id is mapped to that dotted number together with the cleaned name.  Being a
pure function of the catalog forest, the assignment is deterministic: two
runs on the same tree produce identical maps. -/
theorem c5_assign_numbers (catalogs : CatList) :
    assignDocumentNumbers catalogs = specAssignNumbers catalogs := by
  unfold assignDocumentNumbers specAssignNumbers
  exact assignLevel_eq_fold catalogs [] 1 []

theorem flatten_map_fst :
    ∀ (items : CatList) (basePath : JStr),
      (flattenCatalogHierarchy items basePath).map Prod.fst = preorderList items ∧
      (flattenCatalogHierarchy items basePath).length = countNodes items
  | .nil, _ => ⟨rfl, rfl⟩
  | .cons (.mk i n st sub) rest, basePath => by
    have hrest := flatten_map_fst rest basePath
    cases sub with
    | none =>
      constructor
      · simp only [flattenCatalogHierarchy, preorderList, List.map_cons, List.map_append,
          List.nil_append, List.cons.injEq, true_and]
        exact hrest.1
      · simp only [flattenCatalogHierarchy, countNodes, List.length_cons, List.length_append,
          List.length_nil]
        rw [hrest.2]
        omega
    | some subl =>
      cases subl with
      | nil =>
        constructor
        · simp only [flattenCatalogHierarchy, preorderList, CatList.nonempty,
            if_neg (by simp : ¬ (false = true)), List.map_cons, List.map_append,
            List.nil_append, List.cons.injEq, true_and]
          exact hrest.1
        · simp only [flattenCatalogHierarchy, countNodes, CatList.nonempty,
            if_neg (by simp : ¬ (false = true)), List.length_cons, List.length_append,
            List.length_nil]
          rw [hrest.2]
          omega
      | cons c0 l0 =>
        have hsub := flatten_map_fst (CatList.cons c0 l0)
          (if basePath = [] then n else pathJoin basePath n)
        constructor
        · simp only [flattenCatalogHierarchy, preorderList, CatList.nonempty, if_pos rfl,
            if_true, List.map_cons, List.map_append, List.cons.injEq, true_and]
          rw [hrest.1, hsub.1]
        · simp only [flattenCatalogHierarchy, countNodes, CatList.nonempty, if_pos rfl,
            if_true, List.length_cons, List.length_append]
          rw [hrest.2, hsub.2]
          omega

/-- C10: `flattenCatalogHierarchy` is the depth-first pre-order listing of
the whole forest, regardless of status: projecting away the `relativePath`
gives exactly the pre-order node sequence (so every node appears exactly
once, parents before their descendants and siblings in original order), and
the length equals the total node count. -/
theorem c10_flatten (catalogs : CatList) (basePath : JStr) :
    (flattenCatalogHierarchy catalogs basePath).map Prod.fst = preorderList catalogs ∧
    (flattenCatalogHierarchy catalogs basePath).length = countNodes catalogs :=
  flatten_map_fst catalogs basePath

/-! ### Tree strategy: skipping of non-completed subtrees (C2) -/

theorem processLevel_skip (env : FsEnv) (nm : NumMap) (i n s : JStr)
    (sub : Option CatList) (hs : s ≠ str "completed") :
    ∀ (l1 l2 : CatList) (basePath : JStr) (st : ExpSt),
      processLevel env nm (CatList.append l1 (.cons (.mk i n s sub) l2)) basePath st =
        processLevel env nm (CatList.append l1 l2) basePath st
  | .nil, l2, basePath, st => by
    show processLevel env nm (.cons (.mk i n s sub) l2) basePath st =
      processLevel env nm l2 basePath st
    simp only [processLevel]
    rw [if_neg hs]
  | .cons (.mk ci cn cs csub) l1, l2, basePath, st => by
    show processLevel env nm
        (.cons (.mk ci cn cs csub) (CatList.append l1 (.cons (.mk i n s sub) l2))) basePath st =
      processLevel env nm (.cons (.mk ci cn cs csub) (CatList.append l1 l2)) basePath st
    simp only [processLevel]
    exact processLevel_skip env nm i n s sub hs l1 l2 basePath _

/-- **C2** (amended): in the TREE strategy a node whose status is not
`completed` is skipped together with its entire subtree — deleting it from
any sibling position leaves the run unchanged, so its completed descendants
are NOT processed; and in the concrete scenario
`Root(completed) -> [Child(completed), Sibling(failed)]` the output is
`1. Root/README.md` and `1. Root/1.1. Child.md` (the child file carries the
hierarchical number `1.1`, not `1`), with `exportedCount = 2` and no file
for `Sibling`. -/
theorem c2_tree_amended (env : FsEnv) (nm : NumMap) (i n s : JStr)
    (sub : Option CatList) (hs : s ≠ str "completed") :
    (∀ (l1 l2 : CatList) (basePath : JStr) (st : ExpSt),
      processLevel env nm (CatList.append l1 (.cons (.mk i n s sub) l2)) basePath st =
        processLevel env nm (CatList.append l1 l2) basePath st) ∧
    (exportTreeStructure envPure c2tree [] (assignDocumentNumbers c2tree)).2.writes.map Prod.fst =
      [str "1. Root/README.md", str "1. Root/1.1. Child.md"] ∧
    (exportTreeStructure envPure c2tree [] (assignDocumentNumbers c2tree)).1.exportedCount = 2 :=
  ⟨processLevel_skip env nm i n s sub hs, by decide, by decide⟩

/-- Witness for `c2_tree_amended` at a concrete non-completed node. -/
theorem c2_tree_amended_witness :
    (str "failed" ≠ str "completed") ∧
    processLevel envPure []
        (CatList.append .nil (.cons (.mk (str "s") (str "Sibling") (str "failed") none) .nil))
        [] ExpSt.init =
      processLevel envPure [] (CatList.append .nil .nil) [] ExpSt.init :=
  ⟨by decide,
   (c2_tree_amended envPure [] (str "s") (str "Sibling") (str "failed") none
      (by decide)).1 .nil .nil [] ExpSt.init⟩

/-- **C2** counterexample: the claim's concrete expectation `1. Root/1. Child.md`
is wrong (the actual path is `1. Root/1.1. Child.md`), and the completed
child of a failed root is NOT processed: the run on
`Root(failed) -> [Child(completed)]` writes nothing and exports no node,
refuting the claim that completed descendants of a non-completed node are
still placed according to their ancestry. -/
theorem c2_counterexample :
    (exportTreeStructure envPure c2tree [] (assignDocumentNumbers c2tree)).2.writes.map Prod.fst ≠
      [str "1. Root/README.md", str "1. Root/1. Child.md"] ∧
    (exportTreeStructure envPure c2badTree [] (assignDocumentNumbers c2badTree)).2.writes = [] ∧
    (exportTreeStructure envPure c2badTree [] (assignDocumentNumbers c2badTree)).1.exportedCount
      = 0 :=
  ⟨by decide, by decide, by decide⟩

/-! ### Link processing (C9) -/

theorem splitAtChar_marker (stop : Char) :
    ∀ (a r : JStr), stop ∉ a → splitAtChar stop (a ++ stop :: r) = some (a, r)
  | [], r, _ => by simp [splitAtChar]
  | c :: a, r, h => by
    simp only [List.mem_cons, not_or] at h
    obtain ⟨h1, h2⟩ := h
    have hc : ¬(c = stop) := fun he => h1 he.symm
    show splitAtChar stop (c :: (a ++ stop :: r)) = some (c :: a, r)
    simp only [splitAtChar]
    rw [if_neg hc, splitAtChar_marker stop a r h2]

theorem splitAtChar_subset (stop : Char) :
    ∀ (s a b : JStr), splitAtChar stop s = some (a, b) →
      ∀ c : Char, (c ∈ a → c ∈ s) ∧ (c ∈ b → c ∈ s)
  | [], a, b, h => by simp [splitAtChar] at h
  | d :: s, a, b, h => by
    simp only [splitAtChar] at h
    by_cases hd : d = stop
    · rw [if_pos hd] at h
      injection h with h'
      injection h' with h1 h2
      subst h1
      subst h2
      intro c
      exact ⟨fun hc => absurd hc (List.not_mem_nil c),
        fun hc => List.mem_cons_of_mem d hc⟩
    · rw [if_neg hd] at h
      cases hrec : splitAtChar stop s with
      | none =>
        rw [hrec] at h
        simp at h
      | some ab =>
        obtain ⟨p, q⟩ := ab
        rw [hrec] at h
        injection h with h'
        injection h' with h1 h2
        subst h1
        subst h2
        intro c
        have hss := splitAtChar_subset stop s p q hrec c
        refine ⟨fun hc => ?_, fun hc => List.mem_cons_of_mem d (hss.2 hc)⟩
        rcases List.mem_cons.mp hc with he | hm
        · exact he ▸ List.mem_cons_self d s
        · exact List.mem_cons_of_mem d (hss.1 hm)

theorem mem_parseNameExt_name {x : Char} {s : JStr} (h : x ∈ (parseNameExt s).1) :
    x ∈ s := by
  rw [parseNameExt] at h
  cases hsp : splitAtChar '.' s.reverse with
  | none =>
    rw [hsp] at h
    exact h
  | some ab =>
    obtain ⟨revExt, revName⟩ := ab
    rw [hsp] at h
    have hd : x ∈ (if revName = [] then (s, ([] : JStr))
        else (revName.reverse, '.' :: revExt.reverse)).1 := h
    by_cases hrn : revName = []
    · rw [if_pos hrn] at hd
      exact hd
    · rw [if_neg hrn] at hd
      have hsub := (splitAtChar_subset '.' s.reverse revExt revName hsp x).2
        (List.mem_reverse.mp hd)
      exact List.mem_reverse.mp hsub

theorem mem_parseNameExt_ext {x : Char} {s : JStr} (h : x ∈ (parseNameExt s).2) :
    x ∈ s ∨ x = '.' := by
  rw [parseNameExt] at h
  cases hsp : splitAtChar '.' s.reverse with
  | none =>
    rw [hsp] at h
    exact absurd h (List.not_mem_nil x)
  | some ab =>
    obtain ⟨revExt, revName⟩ := ab
    rw [hsp] at h
    have hd : x ∈ (if revName = [] then (s, ([] : JStr))
        else (revName.reverse, '.' :: revExt.reverse)).2 := h
    by_cases hrn : revName = []
    · rw [if_pos hrn] at hd
      exact absurd hd (List.not_mem_nil x)
    · rw [if_neg hrn] at hd
      rcases List.mem_cons.mp hd with he | hm
      · exact Or.inr he
      · refine Or.inl ?_
        have hsub := (splitAtChar_subset '.' s.reverse revExt revName hsp x).1
          (List.mem_reverse.mp hm)
        exact List.mem_reverse.mp hsub

theorem mem_sanitizeFilename {x : Char} {nm : JStr} (h : x ∈ sanitizeFilename nm) :
    x ∈ nm ∨ x ∈ str "_untitled." := by
  have huntl : ∀ y ∈ str "untitled", y ∈ str "_untitled." := by decide
  simp only [sanitizeFilename] at h
  by_cases h0 : jsTrim nm = []
  · rw [if_pos h0] at h
    exact Or.inr (huntl x h)
  · rw [if_neg h0] at h
    set s2 := (jsTrim nm).map (fun c => if isInvalidFileChar c then '_' else c) with hs2def
    set s3 := if reservedNames.contains ((parseNameExt s2).1.map Char.toUpper) then
        '_' :: s2 else s2 with hs3def
    set s4 := (s3.reverse.dropWhile (fun c => c = '.' || c = ' ')).reverse with hs4def
    set s5 := if s4 = [] then str "untitled" else s4 with hs5def
    have H2 : ∀ y ∈ s2, y ∈ nm ∨ y ∈ str "_untitled." := by
      intro y hy
      rw [hs2def] at hy
      obtain ⟨z, hz, he⟩ := List.mem_map.mp hy
      by_cases hv : isInvalidFileChar z = true
      · rw [if_pos hv] at he
        exact Or.inr (by rw [← he]; decide)
      · rw [if_neg hv] at he
        exact Or.inl (he ▸ mem_jsTrim hz)
    have H3 : ∀ y ∈ s3, y ∈ nm ∨ y ∈ str "_untitled." := by
      intro y hy
      rw [hs3def] at hy
      split at hy
      · rcases List.mem_cons.mp hy with he | hm
        · exact Or.inr (by rw [he]; decide)
        · exact H2 y hm
      · exact H2 y hy
    have H4 : ∀ y ∈ s4, y ∈ nm ∨ y ∈ str "_untitled." := by
      intro y hy
      rw [hs4def] at hy
      have h1 := List.mem_reverse.mp hy
      have h2 := (List.dropWhile_sublist _).subset h1
      exact H3 y (List.mem_reverse.mp h2)
    have H5 : ∀ y ∈ s5, y ∈ nm ∨ y ∈ str "_untitled." := by
      intro y hy
      rw [hs5def] at hy
      split at hy
      · exact Or.inr (huntl y hy)
      · exact H4 y hy
    split at h
    · rcases List.mem_append.mp h with hm | hm
      · exact H5 x (mem_parseNameExt_name (List.take_subset _ _ hm))
      · rcases mem_parseNameExt_ext hm with hin | he
        · exact H5 x hin
        · exact Or.inr (by rw [he]; decide)
    · exact H5 x h

theorem not_mem_generateFilename {x : Char} {nm : JStr} (h1 : x ∉ nm)
    (h2 : x ∉ str "_untitled.md") : x ∉ generateFilename nm := by
  intro h
  rw [generateFilename] at h
  have hsub : x ∈ sanitizeFilename nm → False := by
    intro hs
    rcases mem_sanitizeFilename hs with hm | hm
    · exact h1 hm
    · exact h2 ((by decide : ∀ y ∈ str "_untitled.", y ∈ str "_untitled.md") x hm)
  split at h
  · exact hsub h
  · rcases List.mem_append.mp h with hm | hm
    · exact hsub hm
    · exact h2 ((by decide : ∀ y ∈ str ".md", y ∈ str "_untitled.md") x hm)

theorem mem_normalizePath {x : Char} {t : JStr} (h : x ∈ normalizePath t) :
    x ∈ t ∨ x = '/' := by
  obtain ⟨d, hd, he⟩ := List.mem_map.mp h
  by_cases hb : d = '\\'
  · rw [if_pos hb] at he
    exact Or.inr he.symm
  · rw [if_neg hb] at he
    exact Or.inl (he ▸ hd)

theorem normalizePath_idem (t : JStr) :
    normalizePath (normalizePath t) = normalizePath t := by
  simp only [normalizePath, List.map_map]
  refine List.map_congr_left ?_
  intro a _
  by_cases hb : a = '\\' <;> simp [hb, Function.comp]

theorem listStarts_append_left : ∀ (a b t : JStr),
    listStarts (a ++ b) t = true → listStarts a t = true
  | [], _, _, _ => rfl
  | c :: a, b, t, h => by
    cases t with
    | nil => simp [listStarts] at h
    | cons d t =>
      rw [List.cons_append] at h
      simp only [listStarts, Bool.and_eq_true] at h ⊢
      exact ⟨h.1, listStarts_append_left a b t h.2⟩

theorem listStarts_https_http {t : JStr} (h : listStarts (str "https") t = true) :
    listStarts (str "http") t = true := by
  have he : str "https" = str "http" ++ str "s" := rfl
  rw [he] at h
  exact listStarts_append_left _ _ _ h

theorem listStarts_normalizePath :
    ∀ (pre t : JStr), (∀ c ∈ pre, c ≠ '/' ∧ c ≠ '\\') →
      listStarts pre (normalizePath t) = listStarts pre t
  | [], _, _ => rfl
  | _ :: _, [], _ => rfl
  | c :: pre, d :: t, h => by
    obtain ⟨hc1, hc2⟩ := h c (List.mem_cons_self c pre)
    have hrest : ∀ y ∈ pre, y ≠ '/' ∧ y ≠ '\\' :=
      fun y hy => h y (List.mem_cons_of_mem c hy)
    show listStarts (c :: pre) ((if d = '\\' then '/' else d) :: normalizePath t) = _
    simp only [listStarts]
    rw [listStarts_normalizePath pre t hrest]
    by_cases hd : d = '\\'
    · rw [if_pos hd, hd]
      simp [hc1, hc2]
    · rw [if_neg hd]

theorem collapseWsF_id : ∀ (n : Nat) (s : JStr),
    (∀ c ∈ s, isWs c = false) → collapseWsF n s = s
  | 0, s, _ => by cases s <;> rfl
  | _ + 1, [], _ => rfl
  | n + 1, c :: cs, h => by
    have hc := h c (List.mem_cons_self c cs)
    simp only [collapseWsF, hc, Bool.false_eq_true, if_false]
    rw [collapseWsF_id n cs (fun y hy => h y (List.mem_cons_of_mem c hy))]

theorem collapseWs_lower_id (anchor : JStr)
    (h : ∀ c ∈ anchor, c.toLower = c ∧ isWs c = false) :
    collapseWs (anchor.map Char.toLower) = anchor := by
  have hmap : anchor.map Char.toLower = anchor :=
    calc anchor.map Char.toLower = anchor.map id :=
          List.map_congr_left (fun a ha => (h a ha).1)
      _ = anchor := List.map_id anchor
  rw [hmap, collapseWs]
  exact collapseWsF_id _ _ (fun c hc => (h c hc).2)

theorem replWikiF_cons_ne (n : Nat) (c : Char) (cs : JStr) (h : c ≠ '[') :
    replWikiF (n + 1) (c :: cs) = c :: replWikiF n cs := by
  rw [replWikiF.eq_def]
  split
  · omega
  · simp_all
  · rename_i heq1 heq2
    injection heq2 with h1 h2
    exact absurd h1 h
  · rename_i f c' cs' hx hf hc
    injection hc with h1 h2
    subst h1
    subst h2
    have hfe : f = n := by omega
    subst hfe
    rfl

theorem replWikiF_brk_ne (n : Nat) (b : Char) (cs : JStr) (hb : b ≠ '[') :
    replWikiF (n + 1) ('[' :: b :: cs) = '[' :: replWikiF n (b :: cs) := by
  rw [replWikiF.eq_def]
  split
  · omega
  · simp_all
  · rename_i heq1 heq2
    injection heq2 with h1 h2
    injection h2 with h3 h4
    exact absurd h3 hb
  · rename_i f c' cs' hx hf hc
    injection hc with h1 h2
    subst h1
    subst h2
    have hfe : f = n := by omega
    subst hfe
    rfl

theorem replAnchorF_cons_ne (n : Nat) (c : Char) (cs : JStr) (h : c ≠ '[') :
    replAnchorF (n + 1) (c :: cs) = c :: replAnchorF n cs := by
  rw [replAnchorF.eq_def]
  split
  · omega
  · simp_all
  · rename_i heq1 heq2
    injection heq2 with h1 h2
    exact absurd h1 h
  · rename_i f c' cs' hx hf hc
    injection hc with h1 h2
    subst h1
    subst h2
    have hfe : f = n := by omega
    subst hfe
    rfl

theorem replLinkF_cons_ne (n : Nat) (c : Char) (cs : JStr) (h : c ≠ '[') :
    replLinkF (n + 1) (c :: cs) = c :: replLinkF n cs := by
  rw [replLinkF.eq_def]
  split
  · omega
  · simp_all
  · rename_i heq1 heq2
    injection heq2 with h1 h2
    exact absurd h1 h
  · rename_i f c' cs' hx hf hc
    injection hc with h1 h2
    subst h1
    subst h2
    have hfe : f = n := by omega
    subst hfe
    rfl

theorem replImageF_cons_ne (n : Nat) (c : Char) (cs : JStr) (h : c ≠ '!') :
    replImageF (n + 1) (c :: cs) = c :: replImageF n cs := by
  rw [replImageF.eq_def]
  split
  · omega
  · simp_all
  · rename_i heq1 heq2
    injection heq2 with h1 h2
    exact absurd h1 h
  · rename_i f c' cs' hx hf hc
    injection hc with h1 h2
    subst h1
    subst h2
    have hfe : f = n := by omega
    subst hfe
    rfl

theorem replWikiF_zero (s : JStr) : replWikiF 0 s = s := by
  rw [replWikiF.eq_def]
  split
  · simp_all
  · simp_all
  · omega
  · omega

theorem replAnchorF_zero (s : JStr) : replAnchorF 0 s = s := by
  rw [replAnchorF.eq_def]
  split
  · simp_all
  · simp_all
  · omega
  · omega

theorem replLinkF_zero (s : JStr) : replLinkF 0 s = s := by
  rw [replLinkF.eq_def]
  split
  · simp_all
  · simp_all
  · omega
  · omega

theorem replImageF_zero (s : JStr) : replImageF 0 s = s := by
  rw [replImageF.eq_def]
  split
  · simp_all
  · simp_all
  · omega
  · omega

theorem replWikiF_id : ∀ (n : Nat) (s : JStr), '[' ∉ s → replWikiF n s = s
  | 0, s, _ => replWikiF_zero s
  | _ + 1, [], _ => rfl
  | n + 1, c :: cs, h => by
    have hc : c ≠ '[' := fun he => h (List.mem_cons.mpr (Or.inl he.symm))
    rw [replWikiF_cons_ne n c cs hc,
      replWikiF_id n cs (fun hm => h (List.mem_cons_of_mem c hm))]

theorem replAnchorF_id : ∀ (n : Nat) (s : JStr), '[' ∉ s → replAnchorF n s = s
  | 0, s, _ => replAnchorF_zero s
  | _ + 1, [], _ => rfl
  | n + 1, c :: cs, h => by
    have hc : c ≠ '[' := fun he => h (List.mem_cons.mpr (Or.inl he.symm))
    rw [replAnchorF_cons_ne n c cs hc,
      replAnchorF_id n cs (fun hm => h (List.mem_cons_of_mem c hm))]

theorem replLinkF_id : ∀ (n : Nat) (s : JStr), '[' ∉ s → replLinkF n s = s
  | 0, s, _ => replLinkF_zero s
  | _ + 1, [], _ => rfl
  | n + 1, c :: cs, h => by
    have hc : c ≠ '[' := fun he => h (List.mem_cons.mpr (Or.inl he.symm))
    rw [replLinkF_cons_ne n c cs hc,
      replLinkF_id n cs (fun hm => h (List.mem_cons_of_mem c hm))]

theorem replImageF_id : ∀ (n : Nat) (s : JStr), '!' ∉ s → replImageF n s = s
  | 0, s, _ => replImageF_zero s
  | _ + 1, [], _ => rfl
  | n + 1, c :: cs, h => by
    have hc : c ≠ '!' := fun he => h (List.mem_cons.mpr (Or.inl he.symm))
    rw [replImageF_cons_ne n c cs hc,
      replImageF_id n cs (fun hm => h (List.mem_cons_of_mem c hm))]

theorem replWikiF_prefix : ∀ (p : JStr) (n : Nat) (s : JStr), '[' ∉ p →
    replWikiF (p.length + n) (p ++ s) = p ++ replWikiF n s
  | [], n, s, _ => by simp
  | c :: p, n, s, h => by
    have hc : c ≠ '[' := fun he => h (List.mem_cons.mpr (Or.inl he.symm))
    have hp : '[' ∉ p := fun hm => h (List.mem_cons_of_mem c hm)
    show replWikiF ((c :: p).length + n) (c :: (p ++ s)) = c :: (p ++ replWikiF n s)
    have hl : (c :: p).length + n = (p.length + n) + 1 := by
      simp only [List.length_cons]
      omega
    rw [hl, replWikiF_cons_ne _ c _ hc, replWikiF_prefix p n s hp]

theorem replAnchorF_prefix : ∀ (p : JStr) (n : Nat) (s : JStr), '[' ∉ p →
    replAnchorF (p.length + n) (p ++ s) = p ++ replAnchorF n s
  | [], n, s, _ => by simp
  | c :: p, n, s, h => by
    have hc : c ≠ '[' := fun he => h (List.mem_cons.mpr (Or.inl he.symm))
    have hp : '[' ∉ p := fun hm => h (List.mem_cons_of_mem c hm)
    show replAnchorF ((c :: p).length + n) (c :: (p ++ s)) = c :: (p ++ replAnchorF n s)
    have hl : (c :: p).length + n = (p.length + n) + 1 := by
      simp only [List.length_cons]
      omega
    rw [hl, replAnchorF_cons_ne _ c _ hc, replAnchorF_prefix p n s hp]

theorem replLinkF_prefix : ∀ (p : JStr) (n : Nat) (s : JStr), '[' ∉ p →
    replLinkF (p.length + n) (p ++ s) = p ++ replLinkF n s
  | [], n, s, _ => by simp
  | c :: p, n, s, h => by
    have hc : c ≠ '[' := fun he => h (List.mem_cons.mpr (Or.inl he.symm))
    have hp : '[' ∉ p := fun hm => h (List.mem_cons_of_mem c hm)
    show replLinkF ((c :: p).length + n) (c :: (p ++ s)) = c :: (p ++ replLinkF n s)
    have hl : (c :: p).length + n = (p.length + n) + 1 := by
      simp only [List.length_cons]
      omega
    rw [hl, replLinkF_cons_ne _ c _ hc, replLinkF_prefix p n s hp]

theorem replImageF_prefix : ∀ (p : JStr) (n : Nat) (s : JStr), '!' ∉ p →
    replImageF (p.length + n) (p ++ s) = p ++ replImageF n s
  | [], n, s, _ => by simp
  | c :: p, n, s, h => by
    have hc : c ≠ '!' := fun he => h (List.mem_cons.mpr (Or.inl he.symm))
    have hp : '!' ∉ p := fun hm => h (List.mem_cons_of_mem c hm)
    show replImageF ((c :: p).length + n) (c :: (p ++ s)) = c :: (p ++ replImageF n s)
    have hl : (c :: p).length + n = (p.length + n) + 1 := by
      simp only [List.length_cons]
      omega
    rw [hl, replImageF_cons_ne _ c _ hc, replImageF_prefix p n s hp]

theorem replWikiF_match (n : Nat) (name rest : JStr) (h1 : name ≠ []) (h2 : ']' ∉ name) :
    replWikiF (n + 1) ('[' :: '[' :: (name ++ ']' :: ']' :: rest)) =
      '[' :: name ++ ']' :: '(' :: '.' :: '/' ::
        (generateFilename name ++ ')' :: replWikiF n rest) := by
  have hsp : splitAtChar ']' (name ++ ']' :: ']' :: rest) = some (name, ']' :: rest) :=
    splitAtChar_marker ']' name (']' :: rest) h2
  simp only [replWikiF, hsp]
  rw [if_neg h1]

theorem replAnchorF_match (n : Nat) (text anchor rest : JStr)
    (h1 : text ≠ []) (h2 : ']' ∉ text) (h3 : anchor ≠ []) (h4 : ')' ∉ anchor) :
    replAnchorF (n + 1) ('[' :: (text ++ ']' :: '(' :: '#' :: (anchor ++ ')' :: rest))) =
      '[' :: text ++ ']' :: '(' :: '#' ::
        (collapseWs (anchor.map Char.toLower) ++ ')' :: replAnchorF n rest) := by
  have hsp1 : splitAtChar ']' (text ++ ']' :: '(' :: '#' :: (anchor ++ ')' :: rest)) =
      some (text, '(' :: '#' :: (anchor ++ ')' :: rest)) :=
    splitAtChar_marker ']' text _ h2
  have hsp2 : splitAtChar ')' (anchor ++ ')' :: rest) = some (anchor, rest) :=
    splitAtChar_marker ')' anchor rest h4
  simp only [replAnchorF, hsp1, hsp2]
  rw [if_neg h1, if_neg h3]

theorem replAnchorF_nomatch (n : Nat) (text : JStr) (b : Char) (u : JStr)
    (h2 : ']' ∉ text) (hb : b ≠ '#') :
    replAnchorF (n + 1) ('[' :: (text ++ ']' :: '(' :: b :: u)) =
      '[' :: replAnchorF n (text ++ ']' :: '(' :: b :: u) := by
  have hsp : splitAtChar ']' (text ++ ']' :: '(' :: b :: u) = some (text, '(' :: b :: u) :=
    splitAtChar_marker ']' text _ h2
  simp only [replAnchorF, hsp]
  split
  · rename_i text' u' heq
    injection heq with e0
    injection e0 with e1 e2
    injection e2 with e3 e4
    injection e4 with e5 e6
    exact absurd e5 hb
  · rfl

theorem replLinkF_match (n : Nat) (text target rest : JStr)
    (h1 : text ≠ []) (h2 : ']' ∉ text) (h3 : target ≠ []) (h4 : ')' ∉ target) :
    replLinkF (n + 1) ('[' :: (text ++ ']' :: '(' :: (target ++ ')' :: rest))) =
      '[' :: text ++ ']' :: '(' ::
        ((if (listStarts (str "http") target || listStarts (str "https") target ||
            listStarts (str "#") target) = true then target
          else normalizePath target) ++ ')' :: replLinkF n rest) := by
  have hsp1 : splitAtChar ']' (text ++ ']' :: '(' :: (target ++ ')' :: rest)) =
      some (text, '(' :: (target ++ ')' :: rest)) := splitAtChar_marker ']' text _ h2
  have hsp2 : splitAtChar ')' (target ++ ')' :: rest) = some (target, rest) :=
    splitAtChar_marker ')' target rest h4
  simp only [replLinkF, hsp1, hsp2]
  rw [if_neg h1, if_neg h3]
  by_cases hc : (listStarts (str "http") target || listStarts (str "https") target ||
      listStarts (str "#") target) = true
  · rw [if_pos hc, if_pos hc]
  · rw [if_neg hc, if_neg hc]

theorem replLinkF_empty (n : Nat) (u : JStr) :
    replLinkF (n + 1) ('[' :: ']' :: u) = '[' :: replLinkF n (']' :: u) := by
  have hsp : splitAtChar ']' (']' :: u) = some ([], u) := by
    simp [splitAtChar]
  simp only [replLinkF, hsp]
  split
  · rename_i text' u' heq
    injection heq with e0
    injection e0 with e1 e2
    rw [← e1, if_pos rfl]
  · rfl

theorem replImageF_match (n : Nat) (alt target rest : JStr)
    (h2 : ']' ∉ alt) (h3 : target ≠ []) (h4 : ')' ∉ target) :
    replImageF (n + 1) ('!' :: '[' :: (alt ++ ']' :: '(' :: (target ++ ')' :: rest))) =
      '!' :: '[' :: alt ++ ']' :: '(' ::
        ((if (listStarts (str "http") target || listStarts (str "https") target) = true
          then target else normalizePath target) ++ ')' :: replImageF n rest) := by
  have hsp1 : splitAtChar ']' (alt ++ ']' :: '(' :: (target ++ ')' :: rest)) =
      some (alt, '(' :: (target ++ ')' :: rest)) := splitAtChar_marker ']' alt _ h2
  have hsp2 : splitAtChar ')' (target ++ ')' :: rest) = some (target, rest) :=
    splitAtChar_marker ')' target rest h4
  simp only [replImageF, hsp1, hsp2]
  rw [if_neg h3]
  by_cases hc : (listStarts (str "http") target || listStarts (str "https") target) = true
  · rw [if_pos hc, if_pos hc]
  · rw [if_neg hc, if_neg hc]

theorem processInternalLinks_wiki (p name s : JStr) (hp : '[' ∉ p)
    (h1 : name ≠ []) (h2 : ']' ∉ name) (h3 : '[' ∉ name) (hs : '[' ∉ s) :
    processInternalLinks (p ++ str "[[" ++ name ++ str "]]" ++ s) =
      p ++ str "[" ++ name ++ str "](./" ++ generateFilename name ++ str ")" ++ s := by
  have hgf : '[' ∉ generateFilename name := not_mem_generateFilename h3 (by decide)
  have e1 : str "[[" = ['[', '['] := rfl
  have e2 : str "]]" = [']', ']'] := rfl
  have e3 : str "[" = ['['] := rfl
  have e4 : str "](./" = [']', '(', '.', '/'] := rfl
  have e5 : str ")" = [')'] := rfl
  have hin : p ++ str "[[" ++ name ++ str "]]" ++ s =
      p ++ ('[' :: '[' :: (name ++ ']' :: ']' :: s)) := by
    simp [e1, e2, List.append_assoc]
  rw [processInternalLinks, hin, replWiki, List.length_append,
    replWikiF_prefix p _ _ hp, List.length_cons, List.length_cons,
    replWikiF_match _ name s h1 h2, replWikiF_id _ s hs]
  have hmem : '[' ∉ name ++ ']' :: '(' :: '.' :: '/' :: (generateFilename name ++ ')' :: s) := by
    simp only [List.mem_append, List.mem_cons, not_or]
    exact ⟨h3, by decide, by decide, by decide, by decide, hgf, by decide, hs⟩
  rw [replAnchor, List.length_append, replAnchorF_prefix p _ _ hp]
  rw [show ('[' :: name) ++ (']' :: '(' :: '.' :: '/' :: (generateFilename name ++ ')' :: s)) =
    '[' :: (name ++ ']' :: '(' :: '.' :: '/' :: (generateFilename name ++ ')' :: s)) from rfl]
  rw [List.length_cons, replAnchorF_nomatch _ name '.' _ h2 (by decide),
    replAnchorF_id _ _ hmem]
  simp [e3, e4, e5, List.append_assoc]

theorem processInternalLinks_anchor (p text anchor s : JStr) (hp : '[' ∉ p)
    (h1 : text ≠ []) (h2 : ']' ∉ text) (h3 : '[' ∉ text)
    (h5 : anchor ≠ []) (h6 : ')' ∉ anchor) (h7 : '[' ∉ anchor) (hs : '[' ∉ s) :
    processInternalLinks (p ++ str "[" ++ text ++ str "](#" ++ anchor ++ str ")" ++ s) =
      p ++ str "[" ++ text ++ str "](#" ++ collapseWs (anchor.map Char.toLower) ++
        str ")" ++ s := by
  obtain ⟨b, text', rfl⟩ : ∃ b text', text = b :: text' := by
    cases text with
    | nil => exact absurd rfl h1
    | cons b t => exact ⟨b, t, rfl⟩
  have hb : b ≠ '[' := fun he => h3 (List.mem_cons.mpr (Or.inl he.symm))
  have ht' : '[' ∉ text' := fun hm => h3 (List.mem_cons_of_mem b hm)
  have e3 : str "[" = ['['] := rfl
  have e6 : str "](#" = [']', '(', '#'] := rfl
  have e5 : str ")" = [')'] := rfl
  have hin : p ++ str "[" ++ (b :: text') ++ str "](#" ++ anchor ++ str ")" ++ s =
      p ++ ('[' :: b :: (text' ++ ']' :: '(' :: '#' :: (anchor ++ ')' :: s))) := by
    simp [e3, e6, e5, List.append_assoc]
  have hmem : '[' ∉ b :: (text' ++ ']' :: '(' :: '#' :: (anchor ++ ')' :: s)) := by
    simp only [List.mem_append, List.mem_cons, not_or]
    exact ⟨fun he => hb he.symm, ht', by decide, by decide, by decide, h7, by decide, hs⟩
  rw [processInternalLinks, hin, replWiki, List.length_append,
    replWikiF_prefix p _ _ hp, List.length_cons, replWikiF_brk_ne _ b _ hb,
    replWikiF_id _ _ hmem]
  rw [replAnchor, List.length_append, replAnchorF_prefix p _ _ hp]
  rw [show ('[' : Char) :: b :: (text' ++ ']' :: '(' :: '#' :: (anchor ++ ')' :: s)) =
    '[' :: ((b :: text') ++ ']' :: '(' :: '#' :: (anchor ++ ')' :: s)) from rfl]
  rw [List.length_cons, replAnchorF_match _ (b :: text') anchor s h1 h2 h5 h6,
    replAnchorF_id _ s hs]
  simp [e3, e6, e5, List.append_assoc]

theorem processFileLinks_link (p text target s : JStr)
    (hp1 : '!' ∉ p) (hp2 : '[' ∉ p)
    (h1 : text ≠ []) (h2 : ']' ∉ text) (h3 : '!' ∉ text)
    (h4 : target ≠ []) (h5 : ')' ∉ target) (h6 : '!' ∉ target)
    (hs1 : '!' ∉ s) (hs2 : '[' ∉ s) :
    processFileLinks (p ++ str "[" ++ text ++ str "](" ++ target ++ str ")" ++ s) =
      p ++ str "[" ++ text ++ str "](" ++
        (if (listStarts (str "http") target || listStarts (str "https") target ||
            listStarts (str "#") target) = true then target
         else normalizePath target) ++ str ")" ++ s := by
  have e3 : str "[" = ['['] := rfl
  have e7 : str "](" = [']', '('] := rfl
  have e5 : str ")" = [')'] := rfl
  have hin : p ++ str "[" ++ text ++ str "](" ++ target ++ str ")" ++ s =
      p ++ ('[' :: (text ++ ']' :: '(' :: (target ++ ')' :: s))) := by
    simp [e3, e7, e5, List.append_assoc]
  have hbang : '!' ∉ p ++ ('[' :: (text ++ ']' :: '(' :: (target ++ ')' :: s))) := by
    simp only [List.mem_append, List.mem_cons, not_or]
    exact ⟨hp1, by decide, h3, by decide, by decide, h6, by decide, hs1⟩
  rw [processFileLinks, hin, replImage, replImageF_id _ _ hbang]
  rw [replLink, List.length_append, replLinkF_prefix p _ _ hp2, List.length_cons,
    replLinkF_match _ text target s h1 h2 h4 h5, replLinkF_id _ s hs2]
  simp [e3, e7, e5, List.append_assoc]

theorem processFileLinks_image (p alt target s : JStr)
    (hp1 : '!' ∉ p) (hp2 : '[' ∉ p) (h2 : ']' ∉ alt)
    (h4 : target ≠ []) (h5 : ')' ∉ target) (h6 : '[' ∉ target)
    (hs1 : '!' ∉ s) (hs2 : '[' ∉ s) :
    processFileLinks (p ++ str "![" ++ alt ++ str "](" ++ target ++ str ")" ++ s) =
      p ++ str "![" ++ alt ++ str "](" ++
        (if (listStarts (str "http") target || listStarts (str "https") target) = true
         then target else normalizePath target) ++ str ")" ++ s := by
  have e8 : str "![" = ['!', '['] := rfl
  have e7 : str "](" = [']', '('] := rfl
  have e5 : str ")" = [')'] := rfl
  have hin : p ++ str "![" ++ alt ++ str "](" ++ target ++ str ")" ++ s =
      p ++ ('!' :: '[' :: (alt ++ ']' :: '(' :: (target ++ ')' :: s))) := by
    simp [e8, e7, e5, List.append_assoc]
  rw [processFileLinks, hin, replImage, List.length_append,
    replImageF_prefix p _ _ hp1, List.length_cons, List.length_cons,
    replImageF_match _ alt target s h2 h4 h5, replImageF_id _ s hs1]
  set T := if (listStarts (str "http") target || listStarts (str "https") target) = true
    then target else normalizePath target with hT
  have hT6 : '[' ∉ T := by
    rw [hT]
    split
    · exact h6
    · intro hm
      rcases mem_normalizePath hm with hmm | he
      · exact h6 hmm
      · exact absurd he (by decide)
  have hTne : T ≠ [] := by
    rw [hT]
    split
    · exact h4
    · simp only [normalizePath, ne_eq, List.map_eq_nil_iff]
      exact h4
  have hT5 : ')' ∉ T := by
    rw [hT]
    split
    · exact h5
    · intro hm
      rcases mem_normalizePath hm with hmm | he
      · exact h5 hmm
      · exact absurd he (by decide)
  have hTfix : normalizePath T = T ∨
      (listStarts (str "http") T || listStarts (str "https") T ||
        listStarts (str "#") T) = true := by
    rw [hT]
    split
    · rename_i hcond
      right
      simp only [Bool.or_eq_true] at hcond ⊢
      exact Or.inl hcond
    · left
      exact normalizePath_idem target
  have hsel : (if (listStarts (str "http") T || listStarts (str "https") T ||
      listStarts (str "#") T) = true then T else normalizePath T) = T := by
    split
    · rfl
    · rename_i hC
      rcases hTfix with hfix | htrue
      · exact hfix
      · exact absurd htrue hC
  rw [replLink, List.length_append, replLinkF_prefix p _ _ hp2]
  rw [show ('!' :: '[' :: alt) ++ (']' :: '(' :: (T ++ ')' :: s)) =
    '!' :: ('[' :: (alt ++ ']' :: '(' :: (T ++ ')' :: s))) from rfl]
  rw [List.length_cons, replLinkF_cons_ne _ '!' _ (by decide), List.length_cons]
  by_cases halt : alt = []
  · subst halt
    rw [show ('[' :: (([] : JStr) ++ ']' :: '(' :: (T ++ ')' :: s))) =
      '[' :: ']' :: '(' :: (T ++ ')' :: s) from rfl]
    rw [replLinkF_empty, replLinkF_id _ _ (by
      simp only [List.mem_cons, List.mem_append, not_or]
      exact ⟨by decide, by decide, hT6, by decide, hs2⟩ :
        '[' ∉ ']' :: '(' :: (T ++ ')' :: s))]
    simp [e8, e7, e5, List.append_assoc]
  · rw [replLinkF_match _ alt T s halt h2 hTne hT5, replLinkF_id _ s hs2, hsel]
    simp [e8, e7, e5, List.append_assoc]

/-- **C9** counterexample: a bare `#anchor` link target is NOT left
unchanged — `processInternalLinks` lowercases it and replaces whitespace
runs with hyphens, so `[A](#My Anchor)` becomes `[A](#my-anchor)`. -/
theorem c9_counterexample :
    processMarkdownContent (str "[A](#My Anchor)") = str "[A](#my-anchor)" ∧
    str "[A](#my-anchor)" ≠ str "[A](#My Anchor)" :=
  ⟨by decide, by decide⟩

/-- **C9** (amended): for EVERY single link occurrence in otherwise
trigger-free content (the prefix and suffix contain no `[`, and for the
file-link pass no `!`; text/alt contain no `]`, targets no `)` — the
character classes of the source regexes), `processInternalLinks` rewrites
the wiki link `[[name]]` to `[name](./generateFilename name)` and rewrites
the anchor target of `[text](#anchor)` to lowercase with whitespace runs
collapsed to `-` (so exactly the already-lowercase whitespace-free anchors
are unchanged); `processFileLinks` keeps every link target starting with
`http` (hence also `https`) or `#`, keeps every image target starting with
`http`, and rewrites every other link or image target solely by replacing
backslashes with forward slashes (`normalizePath` — no existence check, no
rebasing); and the FLAT export of the single completed document `Intro`
with content `# Intro\n\nSee [[Setup]].` writes the file `1. Intro.md`
whose content contains `[Setup](./Setup.md)`. -/
theorem c9_links_amended :
    (∀ p name s : JStr, '[' ∉ p → name ≠ [] → ']' ∉ name → '[' ∉ name → '[' ∉ s →
      processInternalLinks (p ++ str "[[" ++ name ++ str "]]" ++ s) =
        p ++ str "[" ++ name ++ str "](./" ++ generateFilename name ++ str ")" ++ s) ∧
    (∀ p text anchor s : JStr, '[' ∉ p → text ≠ [] → ']' ∉ text → '[' ∉ text →
      anchor ≠ [] → ')' ∉ anchor → '[' ∉ anchor → '[' ∉ s →
      processInternalLinks (p ++ str "[" ++ text ++ str "](#" ++ anchor ++ str ")" ++ s) =
        p ++ str "[" ++ text ++ str "](#" ++ collapseWs (anchor.map Char.toLower) ++
          str ")" ++ s) ∧
    (∀ anchor : JStr, (∀ c ∈ anchor, c.toLower = c ∧ isWs c = false) →
      collapseWs (anchor.map Char.toLower) = anchor) ∧
    (∀ p text target s : JStr, '!' ∉ p → '[' ∉ p → text ≠ [] → ']' ∉ text → '!' ∉ text →
      target ≠ [] → ')' ∉ target → '!' ∉ target →
      (listStarts (str "http") target = true ∨ listStarts (str "#") target = true) →
      '!' ∉ s → '[' ∉ s →
      processFileLinks (p ++ str "[" ++ text ++ str "](" ++ target ++ str ")" ++ s) =
        p ++ str "[" ++ text ++ str "](" ++ target ++ str ")" ++ s) ∧
    (∀ p text target s : JStr, '!' ∉ p → '[' ∉ p → text ≠ [] → ']' ∉ text → '!' ∉ text →
      target ≠ [] → ')' ∉ target → '!' ∉ target →
      listStarts (str "http") target = false → listStarts (str "#") target = false →
      '!' ∉ s → '[' ∉ s →
      processFileLinks (p ++ str "[" ++ text ++ str "](" ++ target ++ str ")" ++ s) =
        p ++ str "[" ++ text ++ str "](" ++ normalizePath target ++ str ")" ++ s) ∧
    (∀ p alt target s : JStr, '!' ∉ p → '[' ∉ p → ']' ∉ alt →
      target ≠ [] → ')' ∉ target → '[' ∉ target →
      listStarts (str "http") target = true → '!' ∉ s → '[' ∉ s →
      processFileLinks (p ++ str "![" ++ alt ++ str "](" ++ target ++ str ")" ++ s) =
        p ++ str "![" ++ alt ++ str "](" ++ target ++ str ")" ++ s) ∧
    (∀ p alt target s : JStr, '!' ∉ p → '[' ∉ p → ']' ∉ alt →
      target ≠ [] → ')' ∉ target → '[' ∉ target →
      listStarts (str "http") target = false → '!' ∉ s → '[' ∉ s →
      processFileLinks (p ++ str "![" ++ alt ++ str "](" ++ target ++ str ")" ++ s) =
        p ++ str "![" ++ alt ++ str "](" ++ normalizePath target ++ str ")" ++ s) ∧
    ((exportDocumentsFlatStructure envPure [introDoc] [] flatIndexOptions).2.writes.head? =
      some (str "1. Intro.md", str "# Intro\n\nSee [Setup](./Setup.md).") ∧
     occursIn (str "[Setup](./Setup.md)") (str "# Intro\n\nSee [Setup](./Setup.md).")) := by
  refine ⟨processInternalLinks_wiki, processInternalLinks_anchor, collapseWs_lower_id,
    ?_, ?_, ?_, ?_, by decide, str "# Intro\n\nSee ", str ".", by decide⟩
  · intro p text target s hp1 hp2 h1 h2 h3 h4 h5 h6 hk hs1 hs2
    have hcond : (listStarts (str "http") target || listStarts (str "https") target ||
        listStarts (str "#") target) = true := by
      rcases hk with h | h <;> simp [h]
    rw [processFileLinks_link p text target s hp1 hp2 h1 h2 h3 h4 h5 h6 hs1 hs2,
      if_pos hcond]
  · intro p text target s hp1 hp2 h1 h2 h3 h4 h5 h6 hhttp hhash hs1 hs2
    have hhttps : listStarts (str "https") target = false := by
      cases hx : listStarts (str "https") target with
      | false => rfl
      | true =>
        rw [listStarts_https_http hx] at hhttp
        exact absurd hhttp (by simp)
    have hcond : ¬((listStarts (str "http") target || listStarts (str "https") target ||
        listStarts (str "#") target) = true) := by
      simp [hhttp, hhttps, hhash]
    rw [processFileLinks_link p text target s hp1 hp2 h1 h2 h3 h4 h5 h6 hs1 hs2,
      if_neg hcond]
  · intro p alt target s hp1 hp2 h2 h4 h5 h6 hhttp hs1 hs2
    have hcond : (listStarts (str "http") target ||
        listStarts (str "https") target) = true := by
      simp [hhttp]
    rw [processFileLinks_image p alt target s hp1 hp2 h2 h4 h5 h6 hs1 hs2, if_pos hcond]
  · intro p alt target s hp1 hp2 h2 h4 h5 h6 hhttp hs1 hs2
    have hhttps : listStarts (str "https") target = false := by
      cases hx : listStarts (str "https") target with
      | false => rfl
      | true =>
        rw [listStarts_https_http hx] at hhttp
        exact absurd hhttp (by simp)
    have hcond : ¬((listStarts (str "http") target ||
        listStarts (str "https") target) = true) := by
      simp [hhttp, hhttps]
    rw [processFileLinks_image p alt target s hp1 hp2 h2 h4 h5 h6 hs1 hs2, if_neg hcond]

/-- Witness for `c9_links_amended` on concrete content surrounding each
kind of link. -/
theorem c9_links_amended_witness :
    (('[' ∉ str "See ") ∧ (str "Setup" ≠ ([] : JStr)) ∧ (']' ∉ str "Setup") ∧
      ('[' ∉ str "Setup") ∧ ('[' ∉ str ".")) ∧
    processInternalLinks (str "See " ++ str "[[" ++ str "Setup" ++ str "]]" ++ str ".") =
      str "See " ++ str "[" ++ str "Setup" ++ str "](./" ++
        generateFilename (str "Setup") ++ str ")" ++ str "." ∧
    processInternalLinks (str "a " ++ str "[" ++ str "A" ++ str "](#" ++
        str "My Anchor" ++ str ")" ++ str " b") =
      str "a " ++ str "[" ++ str "A" ++ str "](#" ++
        collapseWs ((str "My Anchor").map Char.toLower) ++ str ")" ++ str " b" ∧
    processFileLinks (str "a " ++ str "[" ++ str "x" ++ str "](" ++
        str "docs\\f.md" ++ str ")" ++ str " b") =
      str "a " ++ str "[" ++ str "x" ++ str "](" ++
        normalizePath (str "docs\\f.md") ++ str ")" ++ str " b" :=
  ⟨⟨by decide, by decide, by decide, by decide, by decide⟩,
   c9_links_amended.1 (str "See ") (str "Setup") (str ".")
     (by decide) (by decide) (by decide) (by decide) (by decide),
   (c9_links_amended.2.1 (str "a ") (str "A") (str "My Anchor") (str " b")
     (by decide) (by decide) (by decide) (by decide) (by decide) (by decide)
     (by decide) (by decide)),
   ((c9_links_amended.2.2.2.2.1) (str "a ") (str "x") (str "docs\\f.md") (str " b")
     (by decide) (by decide) (by decide) (by decide) (by decide) (by decide)
     (by decide) (by decide) (by decide) (by decide) (by decide) (by decide))⟩

/-! ### Index file (C8) -/

theorem getLast?_append_single {α : Type} (l : List α) (a : α) :
    (l ++ [a]).getLast? = some a := by
  induction l with
  | nil => rfl
  | cons x xs ih =>
    cases xs with
    | nil => rfl
    | cons y ys =>
      show (x :: y :: (ys ++ [a])).getLast? = some a
      rw [List.getLast?_cons_cons]
      exact ih

theorem occursIn_append_left (x : JStr) {needle h : JStr} (ho : occursIn needle h) :
    occursIn needle (x ++ h) := by
  obtain ⟨p, s, rfl⟩ := ho
  exact ⟨x ++ p, s, by simp [List.append_assoc]⟩

theorem occursIn_append_right (y : JStr) {needle h : JStr} (ho : occursIn needle h) :
    occursIn needle (h ++ y) := by
  obtain ⟨p, s, rfl⟩ := ho
  exact ⟨p, s ++ y, by simp [List.append_assoc]⟩

theorem indexLine_occurs (opts : MarkdownExportOptions) :
    ∀ (docs : List WikiDocument) (start k : Nat) (d : WikiDocument),
      docs[k]? = some d →
      occursIn (indexLine opts (start + k) d) (indexLines opts start docs)
  | [], _start, k, d => by
    intro h
    simp at h
  | d0 :: rest, start, 0, d => by
    intro h
    obtain rfl : d0 = d := by simpa using h
    exact ⟨[], indexLines opts (start + 1) rest, by simp [indexLines]⟩
  | d0 :: rest, start, k + 1, d => by
    intro h
    have hrec := indexLine_occurs opts rest (start + 1) k d (by simpa using h)
    have hadd : start + 1 + k = start + (k + 1) := by omega
    rw [hadd] at hrec
    show occursIn _ (indexLine opts start d0 ++ indexLines opts (start + 1) rest)
    exact occursIn_append_left _ hrec

/-- **C8** (amended): the two DOCUMENT-based strategies write `index.md` at
the destination root as the LAST write when `createIndexFile` is set, the
document list is nonempty and the index write itself succeeds; the index
content contains the listing line of every document (1-based), the
generation timestamp and the `*Total documents: N*` count.  (The
CATALOG-based strategies never write an index; see the counterexample.) -/
theorem c8_index_amended (env : FsEnv) (docs : List WikiDocument) (dest : JStr)
    (opts : MarkdownExportOptions)
    (hci : opts.createIndexFile = true) (hne : docs ≠ [])
    (hw : env.writeFail (pathJoin dest (str "index.md")) = false) :
    (exportDocumentsFlatStructure env docs dest opts).2.writes.getLast? =
      some (pathJoin dest (str "index.md"), createIndexContent docs opts env.now) ∧
    (exportDocumentsTreeStructure env docs dest opts).2.writes.getLast? =
      some (pathJoin dest (str "index.md"), createIndexContent docs opts env.now) ∧
    (∀ (k : Nat) (d : WikiDocument), docs[k]? = some d →
      occursIn (indexLine opts (k + 1) d) (createIndexContent docs opts env.now)) ∧
    occursIn (str "*Generated on " ++ env.now ++ str "*\n")
      (createIndexContent docs opts env.now) ∧
    occursIn (str "*Total documents: " ++ natToStr docs.length ++ str "*\n")
      (createIndexContent docs opts env.now) := by
  have hie : docs.isEmpty = false := by
    cases docs with
    | nil => exact absurd rfl hne
    | cons a l => rfl
  have hstep : ∀ st : ExpSt, (docsIndexStep env dest docs opts st).writes =
      st.writes ++ [(pathJoin dest (str "index.md"), createIndexContent docs opts env.now)] := by
    intro st
    simp [docsIndexStep, doWrite, hci, hie, hw]
  refine ⟨?_, ?_, ?_, ?_, ?_⟩
  · simp only [exportDocumentsFlatStructure]
    rw [hstep]
    exact getLast?_append_single _ _
  · simp only [exportDocumentsTreeStructure]
    rw [hstep]
    exact getLast?_append_single _ _
  · intro k d hk
    have hocc := indexLine_occurs opts docs 1 k d hk
    rw [Nat.add_comm 1 k] at hocc
    simp only [createIndexContent, List.append_assoc]
    exact occursIn_append_left _ (occursIn_append_right _ hocc)
  · refine ⟨str "# Exported Documentation\n\nThis index provides navigation links to all exported documents.\n\n## Documents\n\n" ++
        indexLines opts 1 docs ++ str "\n---\n\n",
      str "*Total documents: " ++ natToStr docs.length ++ str "*\n", ?_⟩
    have h1 : str "\n---\n\n*Generated on " = str "\n---\n\n" ++ str "*Generated on " := by
      decide
    have h2 : str "*\n*Total documents: " = str "*\n" ++ str "*Total documents: " := by
      decide
    simp only [createIndexContent]
    rw [h1, h2]
    simp [List.append_assoc]
  · refine ⟨str "# Exported Documentation\n\nThis index provides navigation links to all exported documents.\n\n## Documents\n\n" ++
        indexLines opts 1 docs ++ str "\n---\n\n*Generated on " ++ env.now ++ str "*\n",
      [], ?_⟩
    have h2 : str "*\n*Total documents: " = str "*\n" ++ str "*Total documents: " := by
      decide
    simp only [createIndexContent]
    rw [h2]
    simp [List.append_assoc]

/-- Witness for `c8_index_amended` on the single-document FLAT export. -/
theorem c8_index_amended_witness :
    flatIndexOptions.createIndexFile = true ∧
    ([introDoc] : List WikiDocument) ≠ [] ∧
    envPure.writeFail (pathJoin [] (str "index.md")) = false ∧
    (exportDocumentsFlatStructure envPure [introDoc] [] flatIndexOptions).2.writes.getLast? =
      some (pathJoin [] (str "index.md"),
        createIndexContent [introDoc] flatIndexOptions envPure.now) :=
  ⟨rfl, List.cons_ne_nil _ _, rfl,
   (c8_index_amended envPure [introDoc] [] flatIndexOptions rfl
      (List.cons_ne_nil _ _) rfl).1⟩

/-- **C8** counterexample: the CATALOG-based FLAT strategy
(`exportFlatStructure`) never consults `createIndexFile`: with the option
set and one completed node processed, the only write is the node's file and
no `index.md` appears at the destination root. -/
theorem c8_counterexample :
    flatIndexOptions.createIndexFile = true ∧
    (exportFlatStructure envPure oneCatalog (str "out") flatIndexOptions
        (assignDocumentNumbers oneCatalog)).2.writes.map Prod.fst =
      [str "out/1. Alpha.md"] ∧
    pathJoin (str "out") (str "index.md") ∉
      (exportFlatStructure envPure oneCatalog (str "out") flatIndexOptions
        (assignDocumentNumbers oneCatalog)).2.writes.map Prod.fst :=
  ⟨rfl, by decide, by decide⟩

/-! ### Counter invariants (C4) -/

theorem isEmpty_iff_nil {α : Type} (l : List α) : l.isEmpty = true ↔ l = [] := by
  cases l <;> simp

theorem doWrite_some {env : FsEnv} {st st' : ExpSt} {p c : JStr}
    (h : doWrite env st p c = some st') :
    env.writeFail p = false ∧ st'.exported = st.exported ∧ st'.failed = st.failed ∧
      st'.errs = st.errs := by
  cases hw : env.writeFail p with
  | true =>
    unfold doWrite at h
    rw [hw] at h
    simp at h
  | false =>
    unfold doWrite at h
    rw [hw] at h
    simp at h
    subst h
    exact ⟨rfl, rfl, rfl, rfl⟩

theorem doWrite_none {env : FsEnv} {st : ExpSt} {p c : JStr}
    (h : doWrite env st p c = none) : env.writeFail p = true := by
  cases hw : env.writeFail p with
  | true => rfl
  | false =>
    unfold doWrite at h
    rw [hw] at h
    simp at h

theorem doCreateDir_some {env : FsEnv} {st st' : ExpSt} {p : JStr}
    (h : doCreateDir env st p = some st') :
    env.dirFail p = false ∧ st'.exported = st.exported ∧ st'.failed = st.failed ∧
      st'.errs = st.errs := by
  cases hw : env.dirFail p with
  | true =>
    unfold doCreateDir at h
    rw [hw] at h
    simp at h
  | false =>
    unfold doCreateDir at h
    rw [hw] at h
    simp at h
    subst h
    exact ⟨rfl, rfl, rfl, rfl⟩

theorem doCreateDir_none {env : FsEnv} {st : ExpSt} {p : JStr}
    (h : doCreateDir env st p = none) : env.dirFail p = true := by
  cases hw : env.dirFail p with
  | true => rfl
  | false =>
    unfold doCreateDir at h
    rw [hw] at h
    simp at h

theorem docsFlatLoop_counts (env : FsEnv) (dest : JStr) :
    ∀ (docs : List WikiDocument) (number : Nat) (st : ExpSt),
      ((docsFlatLoop env dest number docs st).exported +
        (docsFlatLoop env dest number docs st).failed =
          st.exported + st.failed + docs.length) ∧
      ((docsFlatLoop env dest number docs st).errs.length + st.failed =
        st.errs.length + (docsFlatLoop env dest number docs st).failed)
  | [], number, st => by simp [docsFlatLoop]
  | d :: rest, number, st => by
    have ihr := docsFlatLoop_counts env dest rest (number + 1)
    simp only [processLevel, docsFlatLoop]
    cases hd : doWrite env st
        (pathJoin dest (natToStr number ++ str ". " ++ cleanDocumentName d.name ++ str ".md"))
        (docBody number d) with
    | none =>
      obtain ⟨h1, h2⟩ := ihr (nodeFail st d.id)
      simp only [nodeFail, List.length_append, List.length_cons, List.length_nil] at h1 h2 ⊢
      constructor <;> omega
    | some st1 =>
      obtain ⟨hwf, he, hf, herr⟩ := doWrite_some hd
      obtain ⟨h1, h2⟩ := ihr { st1 with exported := st1.exported + 1 }
      have hl : st1.errs.length = st.errs.length := by rw [herr]
      simp only [List.length_cons] at h1 h2 ⊢
      constructor <;> omega

theorem docsIndexStep_counts (env : FsEnv) (dest : JStr) (docs : List WikiDocument)
    (opts : MarkdownExportOptions) (st : ExpSt) :
    (docsIndexStep env dest docs opts st).exported = st.exported ∧
    (docsIndexStep env dest docs opts st).failed = st.failed ∧
    st.errs.length ≤ (docsIndexStep env dest docs opts st).errs.length ∧
    (docsIndexStep env dest docs opts st).errs.length ≤ st.errs.length + 1 := by
  unfold docsIndexStep
  by_cases hc : (opts.createIndexFile && !docs.isEmpty) = true
  · rw [if_pos hc]
    cases hd : doWrite env st (pathJoin dest (str "index.md"))
        (createIndexContent docs opts env.now) with
    | none => simp
    | some st1 =>
      obtain ⟨hwf, he, hf, herr⟩ := doWrite_some hd
      have hl : st1.errs.length = st.errs.length := by rw [herr]
      refine ⟨he, hf, ?_, ?_⟩
      · show st.errs.length ≤ st1.errs.length
        omega
      · show st1.errs.length ≤ st.errs.length + 1
        omega
  · rw [if_neg hc]
    exact ⟨rfl, rfl, Nat.le_refl _, Nat.le_succ _⟩

theorem processLevel_counts (env : FsEnv) (nm : NumMap) :
    ∀ (items : CatList) (basePath : JStr) (st : ExpSt),
      ((processLevel env nm items basePath st).exported +
        (processLevel env nm items basePath st).failed =
          st.exported + st.failed + treeAttempts env nm items basePath) ∧
      ((processLevel env nm items basePath st).errs.length + st.failed =
        st.errs.length + (processLevel env nm items basePath st).failed)
  | .nil, basePath, st => by simp [processLevel, treeAttempts]
  | .cons (.mk i n s none) rest, basePath, st => by
    have ihr := processLevel_counts env nm rest basePath
    by_cases hs : s = str "completed"
    · simp only [processLevel, treeAttempts, if_pos hs]
      split
      · rename_i heq
        obtain ⟨h1, h2⟩ := ihr (nodeFail st i)
        simp only [nodeFail, List.length_append, List.length_cons, List.length_nil] at h1 h2 ⊢
        constructor <;> omega
      · rename_i st1 heq
        obtain ⟨hwf, he, hf, herr⟩ := doWrite_some heq
        obtain ⟨h1, h2⟩ := ihr { st1 with exported := st1.exported + 1 }
        have hl : st1.errs.length = st.errs.length := by rw [herr]
        have hX1 : ({ st1 with exported := st1.exported + 1 } : ExpSt).exported
          = st1.exported + 1 := rfl
        have hX2 : ({ st1 with exported := st1.exported + 1 } : ExpSt).failed = st1.failed := rfl
        have hX3 : ({ st1 with exported := st1.exported + 1 } : ExpSt).errs = st1.errs := rfl
        simp only [hX1, hX2, hX3] at h1 h2
        constructor <;> omega
    · simp only [processLevel, treeAttempts, if_neg hs]
      obtain ⟨h1, h2⟩ := ihr st
      constructor <;> omega
  | .cons (.mk i n s (some subl)) rest, basePath, st => by
    have ihr := processLevel_counts env nm rest basePath
    by_cases hs : s = str "completed"
    · cases hne : subl.nonempty with
      | false =>
        simp only [processLevel, treeAttempts, if_pos hs, hne, Bool.false_eq_true, if_false]
        split
        · rename_i heq
          obtain ⟨h1, h2⟩ := ihr (nodeFail st i)
          simp only [nodeFail, List.length_append, List.length_cons, List.length_nil] at h1 h2 ⊢
          constructor <;> omega
        · rename_i st1 heq
          obtain ⟨hwf, he, hf, herr⟩ := doWrite_some heq
          obtain ⟨h1, h2⟩ := ihr { st1 with exported := st1.exported + 1 }
          have hl : st1.errs.length = st.errs.length := by rw [herr]
          have hX1 : ({ st1 with exported := st1.exported + 1 } : ExpSt).exported
            = st1.exported + 1 := rfl
          have hX2 : ({ st1 with exported := st1.exported + 1 } : ExpSt).failed = st1.failed := rfl
          have hX3 : ({ st1 with exported := st1.exported + 1 } : ExpSt).errs = st1.errs := rfl
          simp only [hX1, hX2, hX3] at h1 h2
          constructor <;> omega
      | true =>
        simp only [processLevel, treeAttempts, if_pos hs, hne, if_true]
        split
        · rename_i heq
          have hdf := doCreateDir_none heq
          rw [hdf]
          obtain ⟨h1, h2⟩ := ihr (nodeFail st i)
          simp only [nodeFail, List.length_append, List.length_cons, List.length_nil,
            if_true] at h1 h2 ⊢
          constructor <;> omega
        · rename_i st1 heq1
          obtain ⟨hdf, he1, hf1, herr1⟩ := doCreateDir_some heq1
          have hl1 : st1.errs.length = st.errs.length := by rw [herr1]
          rw [hdf]
          split
          · rename_i heq2
            have hwf := doWrite_none heq2
            rw [hwf]
            obtain ⟨h1, h2⟩ := ihr (nodeFail st1 i)
            simp only [nodeFail, List.length_append, List.length_cons, List.length_nil,
              Bool.false_eq_true, if_false, if_true] at h1 h2 ⊢
            constructor <;> omega
          · rename_i st2 heq2
            obtain ⟨hwf, he2, hf2, herr2⟩ := doWrite_some heq2
            have hl2 : st2.errs.length = st1.errs.length := by rw [herr2]
            rw [hwf]
            obtain ⟨hs1, hs2⟩ := processLevel_counts env nm subl
              (pathJoin basePath (treeFolderName nm (WikiCatalog.mk i n s (some subl)))) st2
            generalize hY : processLevel env nm subl
              (pathJoin basePath (treeFolderName nm (WikiCatalog.mk i n s (some subl)))) st2 = Y
              at hs1 hs2 ⊢
            obtain ⟨h1, h2⟩ := ihr { Y with exported := Y.exported + 1 }
            have hX1 : ({ Y with exported := Y.exported + 1 } : ExpSt).exported
              = Y.exported + 1 := rfl
            have hX2 : ({ Y with exported := Y.exported + 1 } : ExpSt).failed = Y.failed := rfl
            have hX3 : ({ Y with exported := Y.exported + 1 } : ExpSt).errs = Y.errs := rfl
            simp only [hX1, hX2, hX3] at h1 h2
            simp only [Bool.false_eq_true, if_false] at h1 h2 ⊢
            constructor <;> omega
    · simp only [processLevel, treeAttempts, if_neg hs]
      obtain ⟨h1, h2⟩ := ihr st
      constructor <;> omega

/-- **C4**: result invariants of the export strategies.  For the
document-based FLAT strategy (all documents completed): `success` holds iff
`errors` is empty, `exportedCount + failedCount` equals the number of
documents attempted, and `errors.length` is `failedCount` plus at most one
extra error (the index-write failure, which is recorded without touching
`failedCount`).  For the catalog TREE strategy: `success` holds iff
`errors` is empty, `exportedCount + failedCount` equals the number of
completed nodes actually attempted (`treeAttempts`), and `errors.length`
equals `failedCount` exactly. -/
theorem c4_result_invariants (env : FsEnv) (docs : List WikiDocument) (dest : JStr)
    (opts : MarkdownExportOptions) (catalogs : CatList) (nm : NumMap)
    (_hall : ∀ d ∈ docs, d.status = str "completed") :
    (((exportDocumentsFlatStructure env docs dest opts).1.success = true ↔
       (exportDocumentsFlatStructure env docs dest opts).1.errors = []) ∧
     (exportDocumentsFlatStructure env docs dest opts).1.exportedCount +
       (exportDocumentsFlatStructure env docs dest opts).1.failedCount = docs.length ∧
     (exportDocumentsFlatStructure env docs dest opts).1.failedCount ≤
       (exportDocumentsFlatStructure env docs dest opts).1.errors.length ∧
     (exportDocumentsFlatStructure env docs dest opts).1.errors.length ≤
       (exportDocumentsFlatStructure env docs dest opts).1.failedCount + 1) ∧
    (((exportTreeStructure env catalogs dest nm).1.success = true ↔
       (exportTreeStructure env catalogs dest nm).1.errors = []) ∧
     (exportTreeStructure env catalogs dest nm).1.exportedCount +
       (exportTreeStructure env catalogs dest nm).1.failedCount =
         treeAttempts env nm catalogs dest ∧
     (exportTreeStructure env catalogs dest nm).1.errors.length =
       (exportTreeStructure env catalogs dest nm).1.failedCount) := by
  have hz1 : ExpSt.init.exported = 0 := rfl
  have hz2 : ExpSt.init.failed = 0 := rfl
  have hz3 : ExpSt.init.errs.length = 0 := rfl
  constructor
  · obtain ⟨hl1, hl2⟩ := docsFlatLoop_counts env dest docs 1 ExpSt.init
    obtain ⟨hi1, hi2, hi3, hi4⟩ :=
      docsIndexStep_counts env dest docs opts (docsFlatLoop env dest 1 docs ExpSt.init)
    refine ⟨?_, ?_, ?_, ?_⟩
    · show (docsIndexStep env dest docs opts
          (docsFlatLoop env dest 1 docs ExpSt.init)).errs.isEmpty = true ↔
        (docsIndexStep env dest docs opts (docsFlatLoop env dest 1 docs ExpSt.init)).errs = []
      exact isEmpty_iff_nil _
    · show (docsIndexStep env dest docs opts
          (docsFlatLoop env dest 1 docs ExpSt.init)).exported +
        (docsIndexStep env dest docs opts
          (docsFlatLoop env dest 1 docs ExpSt.init)).failed = docs.length
      omega
    · show (docsIndexStep env dest docs opts
          (docsFlatLoop env dest 1 docs ExpSt.init)).failed ≤
        (docsIndexStep env dest docs opts
          (docsFlatLoop env dest 1 docs ExpSt.init)).errs.length
      omega
    · show (docsIndexStep env dest docs opts
          (docsFlatLoop env dest 1 docs ExpSt.init)).errs.length ≤
        (docsIndexStep env dest docs opts
          (docsFlatLoop env dest 1 docs ExpSt.init)).failed + 1
      omega
  · obtain ⟨ht1, ht2⟩ := processLevel_counts env nm catalogs dest ExpSt.init
    refine ⟨?_, ?_, ?_⟩
    · show (processLevel env nm catalogs dest ExpSt.init).errs.isEmpty = true ↔
        (processLevel env nm catalogs dest ExpSt.init).errs = []
      exact isEmpty_iff_nil _
    · show (processLevel env nm catalogs dest ExpSt.init).exported +
        (processLevel env nm catalogs dest ExpSt.init).failed =
          treeAttempts env nm catalogs dest
      omega
    · show (processLevel env nm catalogs dest ExpSt.init).errs.length =
        (processLevel env nm catalogs dest ExpSt.init).failed
      omega

/-- Witness for `c4_result_invariants` on the single-document / single-node
inputs. -/
theorem c4_result_invariants_witness :
    (∀ d ∈ ([introDoc] : List WikiDocument), d.status = str "completed") ∧
    ((((exportDocumentsFlatStructure envPure [introDoc] (str "out") flatIndexOptions).1.success = true ↔
        (exportDocumentsFlatStructure envPure [introDoc] (str "out") flatIndexOptions).1.errors = []) ∧
      (exportDocumentsFlatStructure envPure [introDoc] (str "out") flatIndexOptions).1.exportedCount +
        (exportDocumentsFlatStructure envPure [introDoc] (str "out") flatIndexOptions).1.failedCount =
          ([introDoc] : List WikiDocument).length ∧
      (exportDocumentsFlatStructure envPure [introDoc] (str "out") flatIndexOptions).1.failedCount ≤
        (exportDocumentsFlatStructure envPure [introDoc] (str "out") flatIndexOptions).1.errors.length ∧
      (exportDocumentsFlatStructure envPure [introDoc] (str "out") flatIndexOptions).1.errors.length ≤
        (exportDocumentsFlatStructure envPure [introDoc] (str "out") flatIndexOptions).1.failedCount + 1) ∧
     (((exportTreeStructure envPure oneCatalog (str "out")
          (assignDocumentNumbers oneCatalog)).1.success = true ↔
        (exportTreeStructure envPure oneCatalog (str "out")
          (assignDocumentNumbers oneCatalog)).1.errors = []) ∧
      (exportTreeStructure envPure oneCatalog (str "out")
          (assignDocumentNumbers oneCatalog)).1.exportedCount +
        (exportTreeStructure envPure oneCatalog (str "out")
          (assignDocumentNumbers oneCatalog)).1.failedCount =
          treeAttempts envPure (assignDocumentNumbers oneCatalog) oneCatalog (str "out") ∧
      (exportTreeStructure envPure oneCatalog (str "out")
          (assignDocumentNumbers oneCatalog)).1.errors.length =
        (exportTreeStructure envPure oneCatalog (str "out")
          (assignDocumentNumbers oneCatalog)).1.failedCount)) :=
  ⟨by decide,
   c4_result_invariants envPure [introDoc] (str "out") flatIndexOptions oneCatalog
     (assignDocumentNumbers oneCatalog) (by decide)⟩

/-! ### Hierarchy reconstruction (C1) -/

theorem insOk_of_nil : ∀ p : List JStr, insOk p .nil
  | [] => trivial
  | _ :: _ => by simp [insOk, specFind]

theorem cleanIds_cons {i n s : JStr} {sub : Option CatList} {l : CatList} :
    cleanIds (.cons (.mk i n s sub) l) ↔
      ('_' ∉ i) ∧ (match sub with
        | some subl => cleanIds subl
        | none => True) ∧ cleanIds l := by
  cases sub <;> exact Iff.rfl

theorem isStrictPrefix_cons {a : JStr} {q p : List JStr} (h : isStrictPrefix q p) :
    isStrictPrefix (a :: q) (a :: p) := by
  obtain ⟨hlt, heq⟩ := h
  refine ⟨by simpa using Nat.succ_lt_succ hlt, ?_⟩
  show a :: q = (a :: p).take (q.length + 1)
  rw [List.take_succ_cons, ← heq]

theorem isStrictPrefix_singleton {a : JStr} {rest : List JStr} (h : rest ≠ []) :
    isStrictPrefix [a] (a :: rest) := by
  refine ⟨?_, ?_⟩
  · simpa using List.length_pos.mpr h
  · show [a] = (a :: rest).take 1
    rw [List.take_succ_cons, List.take_zero]

theorem findOrig_eq_specFind (part : JStr) :
    ∀ F : CatList, cleanIds F → findOrig part F = specFind part F
  | .nil, _ => rfl
  | .cons (.mk i n s sub) l, h => by
    rw [cleanIds_cons] at h
    obtain ⟨hi, _hsub, hl⟩ := h
    simp only [findOrig, specFind, getOriginalId_no_sep hi]
    by_cases hip : i = part
    · rw [if_pos hip, if_pos hip]
    · rw [if_neg hip, if_neg hip]
      exact findOrig_eq_specFind part l hl

theorem cleanIds_of_find (part : JStr) :
    ∀ (F : CatList) (i n s : JStr) (subl : CatList), cleanIds F →
      specFind part F = some (.mk i n s (some subl)) → cleanIds subl
  | .nil, _, _, _, _, _, h => by simp [specFind] at h
  | .cons (.mk ci cn cs csub) l, i, n, s, subl, hc, h => by
    rw [cleanIds_cons] at hc
    obtain ⟨hci, hcsub, hcl⟩ := hc
    by_cases hip : ci = part
    · simp only [specFind, if_pos hip, Option.some.injEq] at h
      injection h with h1 h2 h3 h4
      subst h4
      exact hcsub
    · simp only [specFind, if_neg hip] at h
      exact cleanIds_of_find part l i n s subl hcl h

theorem updateOrig_eq_specUpdate (part : JStr) (f g : CatList → CatList) :
    ∀ (F : CatList) (i0 n0 s0 : JStr) (subl0 : CatList), cleanIds F →
      specFind part F = some (.mk i0 n0 s0 (some subl0)) →
      f subl0 = g subl0 →
      updateOrig part f F = specUpdate part g F
  | .nil, _, _, _, _, _, hfind, _ => by simp [specFind] at hfind
  | .cons (.mk i n s sub) l, i0, n0, s0, subl0, h, hfind, hfg => by
    rw [cleanIds_cons] at h
    obtain ⟨hi, _hsub, hl⟩ := h
    by_cases hip : i = part
    · simp only [specFind, if_pos hip] at hfind
      injection hfind with hmk
      injection hmk with h1 h2 h3 h4
      subst h4
      simp only [updateOrig, specUpdate, getOriginalId_no_sep hi, if_pos hip]
      rw [hfg]
    · simp only [specFind, if_neg hip] at hfind
      simp only [updateOrig, specUpdate, getOriginalId_no_sep hi, if_neg hip]
      rw [updateOrig_eq_specUpdate part f g l i0 n0 s0 subl0 hl hfind hfg]

theorem cleanIds_append : ∀ F1 F2 : CatList,
    cleanIds F1 → cleanIds F2 → cleanIds (CatList.append F1 F2)
  | .nil, _, _, h2 => h2
  | .cons (.mk i n s sub) l, F2, h1, h2 => by
    rw [cleanIds_cons] at h1
    obtain ⟨hi, hsub, hl⟩ := h1
    show cleanIds (.cons (.mk i n s sub) (CatList.append l F2))
    exact cleanIds_cons.mpr ⟨hi, hsub, cleanIds_append l F2 hl h2⟩

theorem cleanIds_specUpdate (part : JStr) (f : CatList → CatList)
    (hf : ∀ subl : CatList, cleanIds subl → cleanIds (f subl)) :
    ∀ F : CatList, cleanIds F → cleanIds (specUpdate part f F)
  | .nil, h => h
  | .cons (.mk i n s sub) l, h => by
    rw [cleanIds_cons] at h
    obtain ⟨hi, hsub, hl⟩ := h
    simp only [specUpdate]
    by_cases hip : i = part
    · rw [if_pos hip]
      cases sub with
      | some subl => exact cleanIds_cons.mpr ⟨hi, hf subl hsub, hl⟩
      | none => exact cleanIds_cons.mpr ⟨hi, hf .nil trivial, hl⟩
    · rw [if_neg hip]
      exact cleanIds_cons.mpr ⟨hi, hsub, cleanIds_specUpdate part f hf l hl⟩

theorem cleanIds_specInsert (lk : List (JStr × WikiCatalog)) :
    ∀ (p : List JStr) (F : CatList),
      cleanIds F → validParts lk p → cleanIds (specInsert lk p F)
  | [], _, h, _ => h
  | part :: rest, F, h, hv => by
    obtain ⟨_hne, hus, _hin⟩ := hv part (by simp)
    have hvr : validParts lk rest := fun q hq => hv q (by simp [hq])
    cases hfind : specFind part F with
    | some c =>
      by_cases hrest : rest = []
      · have hF' : specInsert lk (part :: rest) F = F := by
          simp [specInsert, hfind, hrest]
        rw [hF']
        exact h
      · have hF' : specInsert lk (part :: rest) F =
            specUpdate part (fun subl => specInsert lk rest subl) F := by
          simp [specInsert, hfind, hrest]
        rw [hF']
        exact cleanIds_specUpdate part _
          (fun subl hs => cleanIds_specInsert lk rest subl hs hvr) F h
    | none =>
      cases hlk : jsMapGet lk part with
      | none =>
        have hF' : specInsert lk (part :: rest) F = F := by
          simp [specInsert, hfind, hlk]
        rw [hF']
        exact h
      | some c =>
        by_cases hrest : rest = []
        · have hF' : specInsert lk (part :: rest) F =
              CatList.append F (.cons (.mk part c.name c.status none) .nil) := by
            simp [specInsert, hfind, hlk, hrest]
          rw [hF']
          exact cleanIds_append F _ h
            ((@cleanIds_cons part c.name c.status none CatList.nil).mpr
              ⟨hus, trivial, trivial⟩)
        · have hF' : specInsert lk (part :: rest) F =
              CatList.append F (.cons (.mk part c.name c.status
                (some (specInsert lk rest .nil))) .nil) := by
            simp [specInsert, hfind, hlk, hrest]
          rw [hF']
          exact cleanIds_append F _ h
            ((@cleanIds_cons part c.name c.status (some (specInsert lk rest CatList.nil))
                CatList.nil).mpr
              ⟨hus, cleanIds_specInsert lk rest .nil trivial hvr, trivial⟩)

theorem specFind_specUpdate_ne (part part' : JStr) (hne : part ≠ part')
    (f : CatList → CatList) :
    ∀ F : CatList, specFind part' (specUpdate part f F) = specFind part' F
  | .nil => rfl
  | .cons (.mk i n s sub) l => by
    by_cases hip : i = part
    · simp only [specUpdate, if_pos hip, specFind]
      rw [if_neg (by rw [hip]; exact hne), if_neg (by rw [hip]; exact hne)]
    · simp only [specUpdate, if_neg hip, specFind]
      by_cases hip' : i = part'
      · rw [if_pos hip', if_pos hip']
      · rw [if_neg hip', if_neg hip']
        exact specFind_specUpdate_ne part part' hne f l

theorem specFind_specUpdate_eq (part : JStr) (f : CatList → CatList) :
    ∀ (F : CatList) (i n s : JStr) (sub : Option CatList),
      specFind part F = some (.mk i n s sub) →
      specFind part (specUpdate part f F) =
        some (.mk i n s (some (f (match sub with
          | some subl => subl
          | none => .nil))))
  | .nil, _, _, _, _, h => by simp [specFind] at h
  | .cons (.mk ci cn cs csub) l, i, n, s, sub, h => by
    by_cases hip : ci = part
    · simp only [specFind, if_pos hip] at h
      injection h with hmk
      injection hmk with h1 h2 h3 h4
      subst h1
      subst h2
      subst h3
      subst h4
      simp only [specUpdate, if_pos hip, specFind]
    · simp only [specFind, if_neg hip] at h
      simp only [specUpdate, if_neg hip, specFind]
      exact specFind_specUpdate_eq part f l i n s sub h

theorem specFind_append (part' : JStr) (G : CatList) :
    ∀ F : CatList, specFind part' F = none →
      specFind part' (CatList.append F G) = specFind part' G
  | .nil, _ => rfl
  | .cons (.mk i n s sub) l, h => by
    simp only [specFind] at h
    by_cases hip : i = part'
    · rw [if_pos hip] at h
      simp at h
    · rw [if_neg hip] at h
      show specFind part' (.cons (.mk i n s sub) (CatList.append l G)) = specFind part' G
      simp only [specFind]
      rw [if_neg hip]
      exact specFind_append part' G l h

theorem specFind_append_found (part' : JStr) (G : CatList) {c : WikiCatalog} :
    ∀ F : CatList, specFind part' F = some c →
      specFind part' (CatList.append F G) = some c
  | .nil, h => by simp [specFind] at h
  | .cons (.mk i n s sub) l, h => by
    simp only [specFind] at h
    show specFind part' (.cons (.mk i n s sub) (CatList.append l G)) = some c
    simp only [specFind]
    by_cases hip : i = part'
    · rw [if_pos hip] at h ⊢
      exact h
    · rw [if_neg hip] at h ⊢
      exact specFind_append_found part' G l h

theorem insOk_specInsert (lk : List (JStr × WikiCatalog)) :
    ∀ (p p' : List JStr) (F : CatList),
      insOk p' F → ¬ isStrictPrefix p p' → insOk p' (specInsert lk p F)
  | [], _, _, hok, _ => hok
  | part :: rest, p', F, hok, hsp => by
    cases hfind : specFind part F with
    | some c =>
      cases c with
      | mk ci cn cs csub =>
        by_cases hrest : rest = []
        · simpa [specInsert, hfind, hrest] using hok
        · have hF' : specInsert lk (part :: rest) F =
              specUpdate part (fun subl => specInsert lk rest subl) F := by
            simp [specInsert, hfind, hrest]
          rw [hF']
          cases p' with
          | nil => trivial
          | cons part' rest' =>
            by_cases hpp : part' = part
            · subst hpp
              have hup := specFind_specUpdate_eq part'
                (fun subl => specInsert lk rest subl) F ci cn cs csub hfind
              simp only [insOk, hup]
              cases csub with
              | none =>
                have hr' : rest' = [] := by simpa [insOk, hfind] using hok
                subst hr'
                trivial
              | some subl =>
                have hoks : insOk rest' subl := by simpa [insOk, hfind] using hok
                exact insOk_specInsert lk rest rest' subl hoks
                  (fun hc => hsp (isStrictPrefix_cons hc))
            · have hne : part ≠ part' := fun h => hpp h.symm
              simp only [insOk,
                specFind_specUpdate_ne part part' hne (fun subl => specInsert lk rest subl) F]
              simpa only [insOk] using hok
    | none =>
      cases hlk : jsMapGet lk part with
      | none => simpa [specInsert, hfind, hlk] using hok
      | some c =>
        by_cases hrest : rest = []
        · subst hrest
          have hF' : specInsert lk [part] F =
              CatList.append F (.cons (.mk part c.name c.status none) .nil) := by
            simp [specInsert, hfind, hlk]
          rw [hF']
          cases p' with
          | nil => trivial
          | cons part' rest' =>
            by_cases hpp : part' = part
            · subst hpp
              have hfa : specFind part'
                  (CatList.append F (.cons (.mk part' c.name c.status none) .nil)) =
                  some (.mk part' c.name c.status none) := by
                rw [specFind_append part' _ F hfind]
                simp [specFind]
              simp only [insOk, hfa]
              by_contra hr'
              exact hsp (isStrictPrefix_singleton hr')
            · have hne : part ≠ part' := fun h => hpp h.symm
              have hfa : specFind part'
                  (CatList.append F (.cons (.mk part c.name c.status none) .nil)) =
                  specFind part' F := by
                cases hf2 : specFind part' F with
                | some c2 => exact specFind_append_found part' _ F hf2
                | none =>
                  rw [specFind_append part' _ F hf2]
                  simp only [specFind]
                  rw [if_neg hne]
              simp only [insOk, hfa]
              simpa only [insOk] using hok
        · have hF' : specInsert lk (part :: rest) F =
              CatList.append F (.cons (.mk part c.name c.status
                (some (specInsert lk rest .nil))) .nil) := by
            simp [specInsert, hfind, hlk, hrest]
          rw [hF']
          cases p' with
          | nil => trivial
          | cons part' rest' =>
            by_cases hpp : part' = part
            · subst hpp
              have hfa : specFind part'
                  (CatList.append F (.cons (.mk part' c.name c.status
                    (some (specInsert lk rest .nil))) .nil)) =
                  some (.mk part' c.name c.status (some (specInsert lk rest .nil))) := by
                rw [specFind_append part' _ F hfind]
                simp [specFind]
              simp only [insOk, hfa]
              exact insOk_specInsert lk rest rest' .nil (insOk_of_nil rest')
                (fun hc => hsp (isStrictPrefix_cons hc))
            · have hne : part ≠ part' := fun h => hpp h.symm
              have hfa : specFind part'
                  (CatList.append F (.cons (.mk part c.name c.status
                    (some (specInsert lk rest .nil))) .nil)) =
                  specFind part' F := by
                cases hf2 : specFind part' F with
                | some c2 => exact specFind_append_found part' _ F hf2
                | none =>
                  rw [specFind_append part' _ F hf2]
                  simp only [specFind]
                  rw [if_neg hne]
              simp only [insOk, hfa]
              simpa only [insOk] using hok

theorem insertParts_eq_specInsert (lk : List (JStr × WikiCatalog)) :
    ∀ (p : List JStr) (F : CatList), cleanIds F → validParts lk p → insOk p F →
      insertParts lk p F = specInsert lk p F
  | [], _, _, _, _ => rfl
  | part :: rest, F, hc, hv, hok => by
    obtain ⟨hne, _hus, hin⟩ := hv part (by simp)
    have hvr : validParts lk rest := fun q hq => hv q (by simp [hq])
    have hfo := findOrig_eq_specFind part F hc
    cases hfind : specFind part F with
    | none =>
      rw [hfind] at hfo
      cases hlk : jsMapGet lk part with
      | none =>
        rw [hlk] at hin
        simp at hin
      | some c =>
        by_cases hrest : rest = []
        · subst hrest
          have hL : insertParts lk [part] F =
              CatList.append F (.cons (.mk part c.name c.status none) .nil) := by
            simp [insertParts, hne, hfo, hlk]
          have hR : specInsert lk [part] F =
              CatList.append F (.cons (.mk part c.name c.status none) .nil) := by
            simp [specInsert, hfind, hlk]
          rw [hL, hR]
        · have hL : insertParts lk (part :: rest) F =
              CatList.append F (.cons (.mk part c.name c.status
                (some (insertParts lk rest .nil))) .nil) := by
            simp [insertParts, hne, hfo, hlk, hrest]
          have hR : specInsert lk (part :: rest) F =
              CatList.append F (.cons (.mk part c.name c.status
                (some (specInsert lk rest .nil))) .nil) := by
            simp [specInsert, hfind, hlk, hrest]
          rw [hL, hR, insertParts_eq_specInsert lk rest .nil trivial hvr (insOk_of_nil rest)]
    | some c =>
      rw [hfind] at hfo
      cases c with
      | mk ci cn cs csub =>
        cases csub with
        | none =>
          have hrest : rest = [] := by simpa [insOk, hfind] using hok
          subst hrest
          have hL : insertParts lk [part] F = F := by
            simp [insertParts, hne, hfo]
          have hR : specInsert lk [part] F = F := by
            simp [specInsert, hfind]
          rw [hL, hR]
        | some subl =>
          by_cases hrest : rest = []
          · subst hrest
            have hL : insertParts lk [part] F = F := by
              simp [insertParts, hne, hfo]
            have hR : specInsert lk [part] F = F := by
              simp [specInsert, hfind]
            rw [hL, hR]
          · have hL : insertParts lk (part :: rest) F =
                updateOrig part (fun subl => insertParts lk rest subl) F := by
              simp [insertParts, hne, hfo, hrest]
            have hR : specInsert lk (part :: rest) F =
                specUpdate part (fun subl => specInsert lk rest subl) F := by
              simp [specInsert, hfind, hrest]
            rw [hL, hR]
            have hcsub : cleanIds subl := cleanIds_of_find part F ci cn cs subl hc hfind
            have hoksub : insOk rest subl := by simpa [insOk, hfind] using hok
            exact updateOrig_eq_specUpdate part _ _ F ci cn cs subl hc hfind
              (insertParts_eq_specInsert lk rest subl hcsub hvr hoksub)

theorem foldl_insert_eq (lk : List (JStr × WikiCatalog)) :
    ∀ (ps : List (List JStr)) (F : CatList),
      cleanIds F → (∀ p ∈ ps, validParts lk p) → (∀ p ∈ ps, insOk p F) →
      List.Pairwise (fun a b => ¬ isStrictPrefix a b) ps →
      ps.foldl (fun f p => insertParts lk p f) F =
        ps.foldl (fun f p => specInsert lk p f) F
  | [], _, _, _, _, _ => rfl
  | p :: ps, F, hc, hv, hok, hpw => by
    have hvp := hv p (by simp)
    have hokp := hok p (by simp)
    obtain ⟨hhead, htail⟩ := List.pairwise_cons.mp hpw
    simp only [List.foldl_cons]
    rw [insertParts_eq_specInsert lk p F hc hvp hokp]
    exact foldl_insert_eq lk ps (specInsert lk p F)
      (cleanIds_specInsert lk p F hc hvp)
      (fun q hq => hv q (by simp [hq]))
      (fun q hq => insOk_specInsert lk p q F (hok q (by simp [hq])) (hhead q hq))
      htail

/-- **C1** (amended): under the hypotheses that every segment of every
selected id is nonempty, separator-free and present in the original id
index, AND that no earlier selection's decoded path is a strict prefix of a
later one, `reconstructHierarchy` equals the spec-side reconstruction
`specReconstruct` (merge each decoded path root-to-leaf, re-using siblings
with the same id — so shared ancestors are never duplicated — appending new
nodes in first-insertion order with name and status from the id index).
The extra no-earlier-prefix hypothesis is necessary: without it a node
created as a leaf cannot be descended into and the later path's descendants
are inserted at the wrong level (see the counterexample). -/
theorem c1_reconstruct_amended (T : CatList) (S : List WikiCatalog)
    (hvalid : ∀ sel ∈ S, validParts (createOriginalIdMap T []) (jsSplit '_' sel.id))
    (horder : List.Pairwise (fun a b => ¬ isStrictPrefix a b)
      (S.map fun sel => jsSplit '_' sel.id)) :
    reconstructHierarchy T S = specReconstruct T S := by
  have hv' : ∀ p ∈ S.map fun sel => jsSplit '_' sel.id,
      validParts (createOriginalIdMap T []) p := by
    intro p hp
    obtain ⟨sel, hsel, rfl⟩ := List.mem_map.mp hp
    exact hvalid sel hsel
  have hok' : ∀ p ∈ S.map fun sel => jsSplit '_' sel.id, insOk p CatList.nil :=
    fun p _ => insOk_of_nil p
  have key := foldl_insert_eq (createOriginalIdMap T [])
    (S.map fun sel => jsSplit '_' sel.id) .nil trivial hv' hok' horder
  rw [List.foldl_map, List.foldl_map] at key
  exact key

/-- Witness for `c1_reconstruct_amended`: the two selections of the
counterexample in the unproblematic order (child before parent). -/
theorem c1_reconstruct_amended_witness :
    (∀ sel ∈ c1selGood, validParts (createOriginalIdMap c1orig []) (jsSplit '_' sel.id)) ∧
    List.Pairwise (fun a b => ¬ isStrictPrefix a b)
      (c1selGood.map fun sel => jsSplit '_' sel.id) ∧
    reconstructHierarchy c1orig c1selGood = specReconstruct c1orig c1selGood :=
  ⟨by simp only [validParts]; decide,
   by simp [List.pairwise_cons, isStrictPrefix]; decide,
   c1_reconstruct_amended c1orig c1selGood (by simp only [validParts]; decide)
     (by simp [List.pairwise_cons, isStrictPrefix]; decide)⟩

/-- **C1** counterexample: for the original tree `a -> [b]` with the parent
path `a` selected BEFORE the child path `a_b` (a selection of nodes whose
ids are correctly encoded paths of the tree), the node `a` is first created
as a leaf without a child array, so the second pass cannot descend into it
and inserts `b` at the ROOT level: the result's id paths are `[a], [b]`
rather than the claimed union of root-to-selected paths `[a], [a, b]` —
the hierarchy is NOT preserved for shared ancestors in this order. -/
theorem c1_counterexample :
    pathsOf (reconstructHierarchy c1orig c1sel) = [[str "a"], [str "b"]] ∧
    pathsOf (specReconstruct c1orig c1sel) = [[str "a"], [str "a", str "b"]] ∧
    ([[str "a"], [str "b"]] : List (List JStr)) ≠ [[str "a"], [str "a", str "b"]] :=
  ⟨by decide, by decide, by decide⟩

end QoderWiki
